import Mathlib

/-!
# j2t: flattened schema inference from a JSON document

A shallow embedding of `src/structs.go` (the traversal `Parse`/`parse` and the merge
policy `typeMap.Merge`) together with the part of the `fastjson` value API that the
traversal calls (`Type()` and `String()`), and of `src/main.go` (the sorted key list and
the renderers `writeList`, `writeCsv` and `writeJson`), followed by theorems about them.

Modelling conventions.

* A Go `map[string]string` is a finite map `Finmap` from `String` to `String`; a Go
  `map[string]typeMap` is a finite map from `String` to `typeMap`.  Equality of finite
  maps is extensional, as for Go maps, and no iteration order is part of the value.
* `out[k]` on a `map[string]typeMap` yields the nil map when `k` is absent; `Merge` tests
  `other == nil`.  Every entry that `parse` stores is a non-nil map, so the lookup is
  modelled by `Finmap.lookup` into `Option typeMap` and the nil test by `none`.
* Go strings are modelled by Lean strings (sequences of Unicode code points).
* Source parameters called `prefix` are written `pfx`.
* Go does not fix the order in which `range` yields the entries of a map.  Where the
  result of a loop depends on it, the order is an argument of the model (`rangeKeys`,
  `range`); where a loop only accumulates a maximum or a sum, it is written over the key
  set.
-/

/-! ## The data model -/

/-- The Go type `typeMap`, a `map[string]string` from kind to example. -/
abbrev typeMap := Finmap (fun _ : String => String)

/-- The schema `map[string]typeMap` that `Parse` fills, from field path to entry. -/
abbrev Schema := Finmap (fun _ : String => typeMap)

/-- The constant `typeString` of `structs.go`. -/
abbrev typeString : String := "string"

/-- The constant `typeNumber` of `structs.go`. -/
abbrev typeNumber : String := "number"

/-- The constant `typeNumberFloat` of `structs.go`. -/
abbrev typeNumberFloat : String := "number_float"

/-- The constant `typeNumberInt` of `structs.go`. -/
abbrev typeNumberInt : String := "number_int"

/-- The constant `typeBool` of `structs.go`. -/
abbrev typeBool : String := "bool"

/-- The constant `typeUnknown` of `structs.go`. -/
abbrev typeUnknown : String := "unknown"

/-- A parsed `fastjson.Value`, one constructor per value of `Value.Type()`.  A string
carries its unescaped content, a number the text of the number as it stood in the
document, an object its members in document order (duplicate keys are kept, as
`fastjson` keeps them), an array its elements in order. -/
inductive Value where
  | TypeString (s : String)
  | TypeNumber (s : String)
  | TypeTrue
  | TypeFalse
  | TypeNull
  | TypeObject (kvs : List (String × Value))
  | TypeArray (a : List Value)

/-! ## The `fastjson` calls made by the traversal -/

/-- The `fastjson` helper `hasSpecialChars`: the string holds a double quote, a backslash
or a byte below `0x20`.  The source scans bytes; every byte of the UTF-8 form of a
character from `0x80` on is itself `0x80` or more, so the scan over characters agrees. -/
def hasSpecialChars (s : String) : Bool :=
  s.data.any (fun ch => ch == '"' || ch == '\\' || decide (ch.toNat < 0x20))

/-- The `fastjson` helper `escapeString`, which `MarshalTo` applies to a string value: a
string without special characters is written between two double quotes; any other string
is handed to Go's `strconv.AppendQuote`, whose result depends on the Unicode tables of
the Go library and is the parameter `AppendQuote` here. -/
def escapeString (AppendQuote : String → String) (s : String) : String :=
  if hasSpecialChars s then AppendQuote s else "\"" ++ s ++ "\""

/-- The method `Value.String()` of `fastjson` on the scalar values, the only ones `parse`
calls it on: the JSON text of the value (`MarshalTo`).  Containers are marshalled
recursively by `fastjson`; `parse` never asks for their text and the model returns the
empty string for them. -/
def Value.String (AppendQuote : String → String) : Value → String
  | .TypeString s => escapeString AppendQuote s
  | .TypeNumber s => s
  | .TypeTrue => "true"
  | .TypeFalse => "false"
  | .TypeNull => "null"
  | .TypeObject _ => ""
  | .TypeArray _ => ""

/-! ## `decimalRegex` -/

/-- The character class `\d` of Go's `regexp`: the ten ASCII digits. -/
def digitClass : RegularExpression Char :=
  .char '0' + .char '1' + .char '2' + .char '3' + .char '4' + .char '5' + .char '6' +
    .char '7' + .char '8' + .char '9'

/-- The pattern of `decimalRegex`, `^([-+])?\d+$`.  The anchors make `MatchString` a match
of the whole text, which is what `RegularExpression.rmatch` decides. -/
def decimalRegex : RegularExpression Char :=
  (1 + (.char '-' + .char '+')) * (digitClass * .star digitClass)

/-- The call `decimalRegex.MatchString(s)`. -/
def decimalRegex.MatchString (s : String) : Bool :=
  decimalRegex.rmatch s.data

/-! ## `typeMap.Merge` -/

/-- The Go index expression `m[k]` on a `map[string]string`: the empty string when `k` is
absent. -/
def typeMap.index (m : typeMap) (k : String) : String :=
  (m.lookup k).getD ""

/-- The method `func (m typeMap) Merge(other typeMap) typeMap`.  The loop
`for k, v := range other { m[k] = v }` writes every entry of `other` into `m`, which is
the union in which `other` wins; `len(s) > 0` on a string is `s.length > 0`; `len(m)` is
the number of keys. -/
def typeMap.Merge (m : typeMap) (other : Option typeMap) : typeMap :=
  match other with
  | none => m
  | some other =>
    let m1 : typeMap := other ∪ m
    let hasNull : Bool := decide ((typeMap.index m1 "null").length > 0)
    let m2 : typeMap := if hasNull = true ∧ m1.keys.card > 1 then m1.erase "null" else m1
    if (typeMap.index m2 typeNumberFloat).length > 0
        ∨ (typeMap.index other typeNumberFloat).length > 0 then
      m2.erase typeNumberInt
    else
      m2

/-! ## `parse` and `Parse` -/

mutual
/-- The function `parse` of `structs.go`.  Each scalar branch builds the one-entry map
`typeMap{kind: val.String()}`, merges the entry already at `pfx` into it and stores the
result at `pfx`. -/
def parse (AppendQuote : String → String) :
    String → Value → Schema → Bool → Schema
  | pfx, .TypeString s, out, _ =>
    out.insert pfx (typeMap.Merge
      (Finmap.singleton typeString (Value.String AppendQuote (.TypeString s)))
      (out.lookup pfx))
  | pfx, .TypeNull, out, _ =>
    out.insert pfx (typeMap.Merge
      (Finmap.singleton typeUnknown (Value.String AppendQuote .TypeNull))
      (out.lookup pfx))
  | pfx, .TypeTrue, out, _ =>
    out.insert pfx (typeMap.Merge
      (Finmap.singleton typeBool (Value.String AppendQuote .TypeTrue))
      (out.lookup pfx))
  | pfx, .TypeFalse, out, _ =>
    out.insert pfx (typeMap.Merge
      (Finmap.singleton typeBool (Value.String AppendQuote .TypeFalse))
      (out.lookup pfx))
  | pfx, .TypeNumber s, out, categorizeNumeric =>
    let rawString := Value.String AppendQuote (.TypeNumber s)
    if !categorizeNumeric then
      out.insert pfx (typeMap.Merge
        (Finmap.singleton typeNumber (Value.String AppendQuote (.TypeNumber s)))
        (out.lookup pfx))
    else if decimalRegex.MatchString rawString then
      out.insert pfx (typeMap.Merge
        (Finmap.singleton typeNumberInt (Value.String AppendQuote (.TypeNumber s)))
        (out.lookup pfx))
    else
      out.insert pfx (typeMap.Merge
        (Finmap.singleton typeNumberFloat (Value.String AppendQuote (.TypeNumber s)))
        (out.lookup pfx))
  | pfx, .TypeObject kvs, out, categorizeNumeric =>
    parseObject AppendQuote pfx kvs out categorizeNumeric
  | pfx, .TypeArray arr, out, categorizeNumeric =>
    parseArray AppendQuote pfx arr out categorizeNumeric
/-- The callback loop `obj.Visit(...)` of `parse`: the members are visited in order, each
under the path `pfx + "." + key`. -/
def parseObject (AppendQuote : String → String) :
    String → List (String × Value) → Schema → Bool → Schema
  | _, [], out, _ => out
  | pfx, (k, v) :: rest, out, categorizeNumeric =>
    parseObject AppendQuote pfx rest
      (parse AppendQuote (pfx ++ "." ++ k) v out categorizeNumeric) categorizeNumeric
/-- The loop `for _, v := range arr` of `parse`: every element is visited under the one
path `pfx + "[]"`. -/
def parseArray (AppendQuote : String → String) :
    String → List Value → Schema → Bool → Schema
  | _, [], out, _ => out
  | pfx, v :: rest, out, categorizeNumeric =>
    parseArray AppendQuote pfx rest
      (parse AppendQuote (pfx ++ "[]") v out categorizeNumeric) categorizeNumeric
end

/-- The exported function `Parse` of `structs.go`. -/
def Parse (AppendQuote : String → String) (pfx : String) (val : Value) (out : Schema)
    (categorizeNumeric : Bool) : Schema :=
  parse AppendQuote pfx val out categorizeNumeric

/-! ## Auxiliary notions used in the statements -/

/-- The scalar JSON values: strings, numbers, `true`, `false` and `null`. -/
def Value.isScalar : Value → Bool
  | .TypeObject _ => false
  | .TypeArray _ => false
  | _ => true

/-- The kind under which `parse` records a scalar, read off its branches. -/
def kindOf (categorizeNumeric : Bool) : Value → String
  | .TypeString _ => typeString
  | .TypeNull => typeUnknown
  | .TypeTrue => typeBool
  | .TypeFalse => typeBool
  | .TypeNumber s =>
    if !categorizeNumeric then typeNumber
    else if decimalRegex.MatchString s then typeNumberInt
    else typeNumberFloat
  | .TypeObject _ => ""
  | .TypeArray _ => ""

/-- One leaf write of `parse`: `out[pfx] = typeMap{kind: example}.Merge(out[pfx])`. -/
def leafWrite (pfx kind example_ : String) (out : Schema) : Schema :=
  out.insert pfx (typeMap.Merge (Finmap.singleton kind example_) (out.lookup pfx))

/-- The example stored at field path `p` under kind `k`, if any: `out[p][k]`. -/
def exampleAt (out : Schema) (p k : String) : Option String :=
  (out.lookup p).bind (fun e => e.lookup k)

/-- The integer form of the specification: an optional single leading `+` or `-` followed
by one or more ASCII decimal digits and nothing else. -/
def IntegerForm (t : String) : Prop :=
  ∃ sign digits : List Char, t.data = sign ++ digits
    ∧ (sign = [] ∨ sign = ['+'] ∨ sign = ['-'])
    ∧ digits ≠ [] ∧ ∀ d ∈ digits, d.isDigit = true

/-- The guard of the first clean-up of `Merge`, read on the merged map:
`len(m["null"]) > 0 && len(m) > 1`. -/
def nullRule (M : typeMap) : Prop :=
  (typeMap.index M "null").length > 0 ∧ M.keys.card > 1

/-- The guard of the second clean-up of `Merge`, read on the merged map:
`len(m[typeNumberFloat]) > 0`. -/
def floatRule (M : typeMap) : Prop :=
  (typeMap.index M typeNumberFloat).length > 0

instance nullRule.instDecidable (M : typeMap) : Decidable (nullRule M) := by
  unfold nullRule; infer_instance

instance floatRule.instDecidable (M : typeMap) : Decidable (floatRule M) := by
  unfold floatRule; infer_instance

/-- Every example of the entry is a non-empty text.  The examples `parse` records are the
JSON texts of scalars, which are never empty. -/
def NonEmptyExamples (E : typeMap) : Prop :=
  ∀ k v, E.lookup k = some v → v ≠ ""

/-- The two clean-ups of `Merge` have nothing left to do on the entry: a non-empty
`"null"` example is alone in its entry, and a non-empty `number_float` example excludes
`number_int`. -/
def Cleaned (E : typeMap) : Prop :=
  ((typeMap.index E "null").length > 0 → E.keys.card ≤ 1)
    ∧ (floatRule E → typeNumberInt ∉ E)

/-- The schema `big` is the schema `small` with `p` put in front of every field path. -/
def Prefixed (p : String) (big small : Schema) : Prop :=
  (∀ k, big.lookup (p ++ k) = small.lookup k) ∧ (∀ j ∈ big, ∃ k ∈ small, j = p ++ k)

/-- The entry that `parse` builds at one field path from a sequence of observations
`(kind, example)`: each observation is the one-entry map `typeMap{kind: example}` into
which the entry accumulated so far is merged, starting from the absent entry. -/
def foldMerge (obs : List (String × String)) : Option typeMap :=
  obs.foldl (fun acc o => some (typeMap.Merge (Finmap.singleton o.1 o.2) acc)) none

/-- The kinds that survive the two clean-ups among the observed kinds `ks`: `"null"` only
when no other kind was observed, `number_int` only when `number_float` was not. -/
def KeptKind (ks : List String) (x : String) : Prop :=
  x ∈ ks ∧ ¬ (x = "null" ∧ ∃ y ∈ ks, y ≠ "null")
    ∧ ¬ (x = typeNumberInt ∧ typeNumberFloat ∈ ks)


/-! ## The traversal as a sequence of leaf writes -/

mutual
/-- The leaf writes `(field path, kind, example)` that `parse` performs on a value, in the
order in which it performs them. -/
def observations (AppendQuote : String → String) :
    Bool → String → Value → List (String × String × String)
  | c, pfx, .TypeString s =>
    [(pfx, kindOf c (.TypeString s), Value.String AppendQuote (.TypeString s))]
  | c, pfx, .TypeNumber s =>
    [(pfx, kindOf c (.TypeNumber s), Value.String AppendQuote (.TypeNumber s))]
  | c, pfx, .TypeTrue => [(pfx, kindOf c .TypeTrue, Value.String AppendQuote .TypeTrue)]
  | c, pfx, .TypeFalse => [(pfx, kindOf c .TypeFalse, Value.String AppendQuote .TypeFalse)]
  | c, pfx, .TypeNull => [(pfx, kindOf c .TypeNull, Value.String AppendQuote .TypeNull)]
  | c, pfx, .TypeObject kvs => observationsObject AppendQuote c pfx kvs
  | c, pfx, .TypeArray arr => observationsArray AppendQuote c pfx arr
/-- The leaf writes of the members of an object. -/
def observationsObject (AppendQuote : String → String) :
    Bool → String → List (String × Value) → List (String × String × String)
  | _, _, [] => []
  | c, pfx, (k, v) :: rest =>
    observations AppendQuote c (pfx ++ "." ++ k) v ++ observationsObject AppendQuote c pfx rest
/-- The leaf writes of the elements of an array. -/
def observationsArray (AppendQuote : String → String) :
    Bool → String → List Value → List (String × String × String)
  | _, _, [] => []
  | c, pfx, v :: rest =>
    observations AppendQuote c (pfx ++ "[]") v ++ observationsArray AppendQuote c pfx rest
end

/-- One leaf write, as a step on the schema. -/
def writeObs (out : Schema) (o : String × String × String) : Schema :=
  leafWrite o.1 o.2.1 o.2.2 out

mutual
/-- The scalars that occur in a value, at any depth. -/
def scalarLeaves : Value → List Value
  | .TypeString s => [.TypeString s]
  | .TypeNumber s => [.TypeNumber s]
  | .TypeTrue => [.TypeTrue]
  | .TypeFalse => [.TypeFalse]
  | .TypeNull => [.TypeNull]
  | .TypeObject kvs => scalarLeavesObject kvs
  | .TypeArray arr => scalarLeavesArray arr
/-- The scalars that occur in the members of an object. -/
def scalarLeavesObject : List (String × Value) → List Value
  | [] => []
  | (_, v) :: rest => scalarLeaves v ++ scalarLeavesObject rest
/-- The scalars that occur in the elements of an array. -/
def scalarLeavesArray : List Value → List Value
  | [] => []
  | v :: rest => scalarLeaves v ++ scalarLeavesArray rest
end

/-- Every number that occurs in the value has a non-empty text, as the text of a parsed
JSON number has. -/
def NumbersNonEmpty (v : Value) : Prop :=
  ∀ t, Value.TypeNumber t ∈ scalarLeaves v → t ≠ ""

/-- The kinds that `parse` can record for a given value of `categorizeNumeric`. -/
def allowedKinds (categorizeNumeric : Bool) : List String :=
  if categorizeNumeric then [typeString, typeBool, typeNumberInt, typeNumberFloat, typeUnknown]
  else [typeString, typeBool, typeNumber, typeUnknown]

/-- The schema has taken the leaf write `o` in: the entry at its field path has been through
the clean-ups of `Merge` and holds the kind of `o`, or that kind is `number_int` and the
entry holds a non-empty `number_float` example, which absorbs it. -/
def Absorbed (out : Schema) (o : String × String × String) : Prop :=
  ∃ E, out.lookup o.1 = some E ∧ Cleaned E
    ∧ (o.2.1 ∈ E ∨ (o.2.1 = typeNumberInt ∧ floatRule E))

/-- The entry has no key `"null"` and its `number_float` example, if any, is not empty: on
such an entry the guards of `Merge` read off the set of kinds alone. -/
def Guarded (E : typeMap) : Prop :=
  "null" ∉ E ∧ ∀ e, E.lookup typeNumberFloat = some e → e ≠ ""

/-- Some leaf write of the sequence records the kind `k` at the field path `P`. -/
def ObservedAt (obs : List (String × String × String)) (P k : String) : Prop :=
  ∃ e, (P, k, e) ∈ obs

/-- The kinds left at the field path `P` by a sequence of leaf writes: the kinds observed
there, without `number_int` when `number_float` was observed there too. -/
def KindsSpec (obs : List (String × String × String)) (P k : String) : Prop :=
  ObservedAt obs P k ∧ ¬ (k = typeNumberInt ∧ ObservedAt obs P typeNumberFloat)

/-! ## `main`: the sorted key list -/

/-- The keys of the map `m` in an order in which `for k := range m` can yield them: every
key once, in any order. -/
def IsKeyRange (m : Schema) (keys : List String) : Prop :=
  keys.Nodup ∧ ∀ k, k ∈ keys ↔ k ∈ m

/-- The key list that `main` builds: the keys are appended in the order `rangeKeys` in
which `for k := range m` yields them, then `sort.Slice` sorts the slice with
`less(i, j) = sortedKeys[i] < sortedKeys[j]`.  The comparison of Go strings is byte-wise
lexicographic, which on UTF-8 text is the lexicographic order of the code points, the
order of `String`.  The keys are pairwise distinct, so the sorted slice does not depend
on the algorithm; insertion sort stands for the library routine. -/
def mainSortedKeys (rangeKeys : List String) : List String :=
  rangeKeys.insertionSort (· ≤ ·)

/-! ## The renderers of `main.go` -/

/-- The constant `headerField` of `main.go`. -/
abbrev headerField : String := "field"

/-- The constant `headerType` of `main.go`. -/
abbrev headerType : String := "type"

/-- The constant `headerContent` of `main.go`. -/
abbrev headerContent : String := "content"

/-- The Go index expression `maps[field]` on the schema: the nil map, which has no entry
and length zero, when `field` is absent. -/
def Schema.index (maps : Schema) (field : String) : typeMap :=
  (maps.lookup field).getD ∅

/-- The pairs `(kind, example)` of the entry `m` in an order in which
`for t, c := range m` can yield them: every pair once, in any order. -/
def IsRange (m : typeMap) (order : List (String × String)) : Prop :=
  order.Nodup ∧ ∀ t c, (t, c) ∈ order ↔ m.lookup t = some c

/-- The oracle `range` gives, for every field path and the entry found there, an order in
which the renderer's loop `for t, c := range maps[field]` can yield the pairs of that
entry.  Go does not fix this order; the renderers take it as an argument. -/
def RangeOracle (maps : Schema) (range : String → typeMap → List (String × String)) : Prop :=
  ∀ field, IsRange (Schema.index maps field) (range field (Schema.index maps field))

/-- The records that `writeCsv` hands to `csv.Writer.Write`, in order.  The writer is taken
not to fail. -/
def csvRecords (range : String → typeMap → List (String × String))
    (sortedKeys : List String) (maps : Schema) (merge requireHeaders : Bool) :
    List (List String) :=
  (if requireHeaders then [[headerField, headerType, headerContent]] else [])
    ++ sortedKeys.flatMap (fun field =>
      let m := range field (Schema.index maps field)
      (if !merge then m.map (fun tc => [field, tc.1, tc.2]) else [])
        ++ (if !merge then []
            else [[field, ";".intercalate (m.map Prod.fst), ";".intercalate (m.map Prod.snd)]]))

/-- The function `writeCsv`: the records are encoded by `csv.Writer`, a function of the
record sequence, which is the parameter `csvEncode` here. -/
def writeCsv (csvEncode : List (List String) → String)
    (range : String → typeMap → List (String × String))
    (sortedKeys : List String) (maps : Schema) (merge requireHeaders : Bool) : String :=
  csvEncode (csvRecords range sortedKeys maps merge requireHeaders)

/-- One element of the slice `content` of `writeJson`: the Go map with the keys `field` and
`types`, where each element of `types` is the Go map with the keys `type` and `content`,
written here as the pair `(type, content)`. -/
structure JsonRecord where
  field : String
  types : List (String × String)
deriving DecidableEq

/-- The slice `content` that `writeJson` builds and encodes. -/
def jsonContent (range : String → typeMap → List (String × String))
    (sortedKeys : List String) (maps : Schema) : List JsonRecord :=
  sortedKeys.map (fun field =>
    { field := field, types := range field (Schema.index maps field) })

/-- The function `writeJson`: `content` is encoded by `json.Encoder`, a function of the
value and of the indentation setting, which is the parameter `Encode` here. -/
def writeJson (Encode : List JsonRecord → Bool → String)
    (range : String → typeMap → List (String × String))
    (sortedKeys : List String) (maps : Schema) (prettyPrint : Bool) : String :=
  Encode (jsonContent range sortedKeys maps) prettyPrint

/-- The verb `%-*s` of `fmt.Sprintf` with its width argument.  For a width up to
1,000,000 the text is followed by spaces up to the width, counted in characters, and a
text as long as the width or longer is left as it is.  A width above 1,000,000 is refused
by `fmt` (`tooLarge` in `intFromArg`): it writes `%!(BADWIDTH)`, drops the width and then
writes the text without padding. -/
def padRight (width : Nat) (s : String) : String :=
  if width > 1000000 then "%!(BADWIDTH)" ++ s
  else s ++ String.mk (List.replicate (width - s.length) ' ')

/-- The call `fmt.Sprintf("%-*s%-*s%-s\n", fieldLen, field, typeLen, t, c)`: each of the
two width arguments goes through `padRight`, limit included; the verb `%-s` has no
width. -/
def Sprintf (fieldLen : Nat) (field : String) (typeLen : Nat) (t c : String) : String :=
  padRight fieldLen field ++ padRight typeLen t ++ c ++ "\n"

/-- The value of `fieldLen` in `writeList` when the rows are written: the maximum of
`len(headerField)` and of `len(field)` over the sorted fields, plus one.  The Go `len` of
a string is its length in bytes. -/
def listFieldLen (sortedFields : List String) : Nat :=
  sortedFields.foldl (fun fieldLen field => max fieldLen field.utf8ByteSize)
    headerField.utf8ByteSize + 1

/-- The value of `typeLen` in `writeList` when the rows are written.  The loops over `maps`
and over each entry only accumulate a maximum and a sum, so the order of iteration does
not matter and they are written over the key sets.  Without `merge` the maximum is over
`len(t)` of every kind of every entry; with `merge` it is over `mergeLen`, the sum of
`len(t) + 1` over the kinds of an entry, minus one (for an entry without kinds Go computes
`-1`, which the maximum with `typeLen` discards as it does the `0` here). -/
def listTypeLen (maps : Schema) (merge : Bool) : Nat :=
  max headerType.utf8ByteSize
    (maps.keys.sup (fun field =>
      if merge then (Schema.index maps field).keys.sum (fun t => t.utf8ByteSize + 1) - 1
      else (Schema.index maps field).keys.sup (fun t => t.utf8ByteSize))) + 1

/-- The function `writeList`: the byte strings handed to `w.Write`, in order; the output
is their concatenation.  The writer is taken not to fail. -/
def writeList (range : String → typeMap → List (String × String))
    (sortedFields : List String) (maps : Schema) (merge requireHeaders : Bool) :
    List String :=
  let fieldLen := listFieldLen sortedFields
  let typeLen := listTypeLen maps merge
  (if requireHeaders then [Sprintf fieldLen headerField typeLen headerType headerContent]
    else [])
    ++ sortedFields.flatMap (fun field =>
      let m := range field (Schema.index maps field)
      (if !merge then m.map (fun tc => Sprintf fieldLen field typeLen tc.1 tc.2) else [])
        ++ (if !merge then []
            else [Sprintf fieldLen field typeLen (";".intercalate (m.map Prod.fst))
              (";".intercalate (m.map Prod.snd))]))

/-- Every character of the text is an ASCII character. -/
def IsAscii (s : String) : Prop :=
  ∀ ch ∈ s.data, ch.toNat < 128

/-- The line that `writeList` writes for a three-column record, with the given widths. -/
def formatRecord (fieldLen typeLen : Nat) : List String → String
  | [field, t, c] => Sprintf fieldLen field typeLen t c
  | _ => ""

/-- The longest length, in characters, among the texts of the list. -/
def longestLength (l : List String) : Nat :=
  l.foldr (fun s acc => max s.length acc) 0

/-- The width `Wf` of the field column: one more than the longer of the header `field`
(five characters) and the longest listed field path. -/
def fieldWidth (sortedFields : List String) : Nat :=
  1 + max 5 (longestLength sortedFields)

/-- The width `Wt` of the type column: one more than the longer of the header `type`
(four characters) and `L`, the longest kind name of the schema without `merge`, the
longest `;`-joined kind cell of the schema with `merge`. -/
def typeWidth (range : String → typeMap → List (String × String)) (maps : Schema)
    (merge : Bool) : Nat :=
  1 + max 4 (maps.keys.sup (fun field =>
    if merge then
      (";".intercalate ((range field (Schema.index maps field)).map Prod.fst)).length
    else (Schema.index maps field).keys.sup String.length))

/-! ## Sample inputs -/

/-- The schema of the array `[1, "a"]` under the root path `f`: one field path with the two
kinds `number` and `string`. -/
def sampleMaps : Schema :=
  Finmap.singleton "f[]" ((Finmap.singleton "string" "\"a\"").insert "number" "1")

/-- An iteration order for `sampleMaps`: `number` before `string`. -/
def sampleRange : String → typeMap → List (String × String) :=
  fun field _ => if field = "f[]" then [("number", "1"), ("string", "\"a\"")] else []

/-- Another iteration order for `sampleMaps`: `string` before `number`. -/
def sampleRangeRev : String → typeMap → List (String × String) :=
  fun field _ => if field = "f[]" then [("string", "\"a\""), ("number", "1")] else []

/-- An object key of 999,999 characters `a`. -/
def longKey : String :=
  String.mk (List.replicate 999999 'a')

/-- The field path of the member `longKey` of an object traversed under the empty root
path: a dot and the key, 1,000,000 characters. -/
def longField : String :=
  "" ++ "." ++ longKey

/-- The schema of the JSON object with the one member `longKey`, whose value is the
string `"a"`: the entry at `longField` holds the kind `string`. -/
def longMaps : Schema :=
  Finmap.singleton longField (Finmap.singleton "string" "\"a\"")

/-- The iteration order for `longMaps`, whose one entry has one kind. -/
def longRange : String → typeMap → List (String × String) :=
  fun field _ => if field = longField then [("string", "\"a\"")] else []

/-! ## Leaf writes -/

/-- On a scalar, `parse` is one leaf write of the kind and text of the scalar. -/
theorem parse_scalar (q : String → String) (p : String) (v : Value) (out : Schema) (c : Bool)
    (hv : v.isScalar = true) :
    parse q p v out c = leafWrite p (kindOf c v) (Value.String q v) out := by
  cases v with
  | TypeNumber s =>
    cases c <;> by_cases h : decimalRegex.MatchString s = true <;>
      simp [parse, leafWrite, kindOf, Value.String, h]
  | TypeObject kvs => simp [Value.isScalar] at hv
  | TypeArray a => simp [Value.isScalar] at hv
  | _ => simp [parse, leafWrite, kindOf]

theorem parse_TypeNumber (q : String → String) (p t : String) (out : Schema) (c : Bool) :
    parse q p (.TypeNumber t) out c = leafWrite p (kindOf c (.TypeNumber t)) t out :=
  parse_scalar q p (.TypeNumber t) out c rfl

theorem insert_empty_eq_singleton {β : Type} (p : String) (e : β) :
    Finmap.insert p e (∅ : Finmap (fun _ : String => β)) = Finmap.singleton p e := rfl

theorem keys_insert_eq {β : Type} (p : String) (e : β) (out : Finmap (fun _ : String => β)) :
    (out.insert p e).keys = insert p out.keys := by
  ext j
  simp [Finmap.mem_keys, Finmap.mem_insert]

theorem leafWrite_of_not_mem (p k e : String) (out : Schema) (h : p ∉ out) :
    leafWrite p k e out = out.insert p (Finmap.singleton k e) := by
  have : out.lookup p = none := Finmap.lookup_eq_none.mpr h
  simp [leafWrite, this, typeMap.Merge]

theorem leafWrite_empty (p k e : String) :
    leafWrite p k e ∅ = Finmap.singleton p (Finmap.singleton k e) := by
  rw [leafWrite_of_not_mem p k e ∅ (Finmap.not_mem_empty), insert_empty_eq_singleton]

theorem keys_leafWrite (p k e : String) (out : Schema) :
    (leafWrite p k e out).keys = insert p out.keys := by
  rw [leafWrite, keys_insert_eq]

theorem lookup_leafWrite_self (p k e : String) (out : Schema) :
    (leafWrite p k e out).lookup p
      = some (typeMap.Merge (Finmap.singleton k e) (out.lookup p)) := by
  rw [leafWrite, Finmap.lookup_insert]

/-! ## `decimalRegex` against the integer form -/

theorem isDigit_iff (d : Char) :
    d.isDigit = true ↔ (d = '0' ∨ d = '1' ∨ d = '2' ∨ d = '3' ∨ d = '4' ∨ d = '5' ∨ d = '6'
      ∨ d = '7' ∨ d = '8' ∨ d = '9') := by
  constructor
  · intro h
    have h1 : 48 ≤ d.toNat ∧ d.toNat ≤ 57 := by
      simp only [Char.isDigit, Bool.and_eq_true, decide_eq_true_eq] at h
      exact ⟨h.1, h.2⟩
    have h2 : d = Char.ofNat d.toNat := (Char.ofNat_toNat d).symm
    obtain ⟨ha, hb⟩ := h1
    generalize d.toNat = n at h2 ha hb
    subst h2
    interval_cases n <;> decide
  · intro h
    rcases h with h | h | h | h | h | h | h | h | h | h <;> subst h <;> decide

theorem digitClass_rmatch_iff (x : List Char) :
    digitClass.rmatch x = true ↔ ∃ d : Char, x = [d] ∧ d.isDigit = true := by
  simp only [digitClass, RegularExpression.add_rmatch_iff, RegularExpression.char_rmatch_iff]
  constructor
  · intro h
    rcases h with ((((((((h | h) | h) | h) | h) | h) | h) | h) | h) | h <;>
      exact ⟨_, h, by decide⟩
  · rintro ⟨d, rfl, hd⟩
    rcases (isDigit_iff d).mp hd with h | h | h | h | h | h | h | h | h | h <;> subst h <;> simp

theorem star_digitClass_rmatch_iff (x : List Char) :
    (RegularExpression.star digitClass).rmatch x = true ↔ ∀ d ∈ x, d.isDigit = true := by
  rw [RegularExpression.star_rmatch_iff]
  constructor
  · rintro ⟨S, rfl, hS⟩ d hd
    obtain ⟨t, ht, hdt⟩ := List.mem_flatten.mp hd
    obtain ⟨d', rfl, hd'⟩ := (digitClass_rmatch_iff t).mp (hS t ht).2
    rw [List.mem_singleton.mp hdt]
    exact hd'
  · intro h
    refine ⟨x.map (fun d => [d]), ?_, ?_⟩
    · induction x with
      | nil => rfl
      | cons a l ih =>
        have := ih (fun d hd => h d (List.mem_cons_of_mem _ hd))
        simp only [List.map_cons, List.flatten_cons, List.singleton_append]
        rw [← this]
    · intro t ht
      obtain ⟨d, hd, rfl⟩ := List.mem_map.mp ht
      exact ⟨by simp, (digitClass_rmatch_iff [d]).mpr ⟨d, rfl, h d hd⟩⟩

/-- The regular expression `^([-+])?\d+$` matches exactly the texts of integer form. -/
theorem MatchString_iff_IntegerForm (t : String) :
    decimalRegex.MatchString t = true ↔ IntegerForm t := by
  unfold decimalRegex.MatchString decimalRegex IntegerForm
  rw [RegularExpression.mul_rmatch_iff]
  constructor
  · rintro ⟨sign, rest, hx, hs, hr⟩
    rw [RegularExpression.mul_rmatch_iff] at hr
    obtain ⟨a, b, rfl, ha, hb⟩ := hr
    obtain ⟨d, rfl, hd⟩ := (digitClass_rmatch_iff a).mp ha
    refine ⟨sign, [d] ++ b, hx, ?_, by simp, ?_⟩
    · simp only [RegularExpression.add_rmatch_iff, RegularExpression.one_rmatch_iff,
        RegularExpression.char_rmatch_iff] at hs
      tauto
    · intro e he
      rcases List.mem_append.mp he with h | h
      · rw [List.mem_singleton.mp h]; exact hd
      · exact (star_digitClass_rmatch_iff b).mp hb e h
  · rintro ⟨sign, digits, hx, hs, hne, hd⟩
    refine ⟨sign, digits, hx, ?_, ?_⟩
    · simp only [RegularExpression.add_rmatch_iff, RegularExpression.one_rmatch_iff,
        RegularExpression.char_rmatch_iff]
      tauto
    · cases digits with
      | nil => exact absurd rfl hne
      | cons a l =>
        rw [RegularExpression.mul_rmatch_iff]
        exact ⟨[a], l, rfl,
          (digitClass_rmatch_iff [a]).mpr ⟨a, rfl, hd a (List.mem_cons_self _ _)⟩,
          (star_digitClass_rmatch_iff l).mpr (fun d h => hd d (List.mem_cons_of_mem _ h))⟩

theorem not_IntegerForm_of_mem (t : String)
    (h : ∃ ch ∈ t.data, ch = '.' ∨ ch = 'e' ∨ ch = 'E') : ¬ IntegerForm t := by
  rintro ⟨sign, digits, hx, hs, -, hd⟩
  obtain ⟨ch, hch, hc⟩ := h
  rw [hx] at hch
  rcases List.mem_append.mp hch with h1 | h1
  · rcases hs with rfl | rfl | rfl
    · simp at h1
    · rw [List.mem_singleton.mp h1] at hc; revert hc; decide
    · rw [List.mem_singleton.mp h1] at hc; revert hc; decide
  · have := hd ch h1
    rcases hc with rfl | rfl | rfl <;> revert this <;> decide

theorem hasSpecialChars_eq_false_iff (s : String) :
    hasSpecialChars s = false
      ↔ ∀ ch ∈ s.data, ch ≠ '"' ∧ ch ≠ '\\' ∧ 0x20 ≤ ch.toNat := by
  unfold hasSpecialChars
  rw [← Bool.not_eq_true, List.any_eq_true]
  constructor
  · intro h ch hch
    by_contra hc
    apply h
    refine ⟨ch, hch, ?_⟩
    simp only [Bool.or_eq_true, beq_iff_eq, decide_eq_true_eq]
    by_contra hn
    apply hc
    push_neg at hn
    exact ⟨hn.1.1, hn.1.2, hn.2⟩
  · rintro h ⟨ch, hch, hc⟩
    simp only [Bool.or_eq_true, beq_iff_eq, decide_eq_true_eq] at hc
    obtain ⟨h1, h2, h3⟩ := h ch hch
    rcases hc with (hc | hc) | hc
    · exact h1 hc
    · exact h2 hc
    · omega

/-! ## The merge policy -/

theorem length_pos_iff_ne_empty (s : String) : s.length > 0 ↔ s ≠ "" := by
  rw [gt_iff_lt, Nat.pos_iff_ne_zero]
  constructor
  · intro h hs; subst hs; exact h rfl
  · intro h hl
    apply h
    apply String.ext
    exact List.length_eq_zero.mp hl

theorem index_eq_of_lookup {M : typeMap} {k v : String} (h : M.lookup k = some v) :
    typeMap.index M k = v := by
  simp [typeMap.index, h]

theorem index_of_not_mem {M : typeMap} {k : String} (h : k ∉ M) :
    typeMap.index M k = "" := by
  simp [typeMap.index, Finmap.lookup_eq_none.mpr h]

theorem index_union (X m : typeMap) (k : String) :
    typeMap.index (X ∪ m) k = if k ∈ X then typeMap.index X k else typeMap.index m k := by
  by_cases h : k ∈ X
  · simp [typeMap.index, Finmap.lookup_union_left h, h]
  · simp [typeMap.index, Finmap.lookup_union_right h, h]

theorem index_erase_ne (M : typeMap) {a k : String} (h : k ≠ a) :
    typeMap.index (M.erase a) k = typeMap.index M k := by
  simp [typeMap.index, Finmap.lookup_erase_ne h]

theorem mem_of_index_length_pos {M : typeMap} {k : String}
    (h : (typeMap.index M k).length > 0) : k ∈ M := by
  by_contra hk
  rw [index_of_not_mem hk] at h
  exact absurd h (by decide)

theorem floatRule_union_of_index (X m : typeMap)
    (h : (typeMap.index X typeNumberFloat).length > 0) : floatRule (X ∪ m) := by
  unfold floatRule
  rw [index_union, if_pos (mem_of_index_length_pos h)]
  exact h

theorem Merge_some (m X : typeMap) :
    typeMap.Merge m (some X) =
      if floatRule (X ∪ m) then
        (if nullRule (X ∪ m) then (X ∪ m).erase "null" else X ∪ m).erase typeNumberInt
      else
        (if nullRule (X ∪ m) then (X ∪ m).erase "null" else X ∪ m) := by
  have hfl : ∀ M : typeMap, typeMap.index M typeNumberFloat = typeMap.index (X ∪ m) typeNumberFloat →
      (((typeMap.index M typeNumberFloat).length > 0
        ∨ (typeMap.index X typeNumberFloat).length > 0) ↔ floatRule (X ∪ m)) := by
    intro M hM
    rw [hM]
    exact ⟨fun h => h.elim id (floatRule_union_of_index X m), Or.inl⟩
  simp only [typeMap.Merge, decide_eq_true_eq]
  by_cases hn : nullRule (X ∪ m)
  · have hn' := hn
    unfold nullRule at hn'
    have h := hfl ((X ∪ m).erase "null") (index_erase_ne _ (by decide))
    simp only [if_pos hn, if_pos hn']
    by_cases hf : floatRule (X ∪ m)
    · rw [if_pos hf, if_pos (h.mpr hf)]
    · rw [if_neg hf, if_neg (fun hh => hf (h.mp hh))]
  · have hn' := hn
    unfold nullRule at hn'
    have h := hfl (X ∪ m) rfl
    simp only [if_neg hn, if_neg hn']
    by_cases hf : floatRule (X ∪ m)
    · rw [if_pos hf, if_pos (h.mpr hf)]
    · rw [if_neg hf, if_neg (fun hh => hf (h.mp hh))]

theorem lookup_ite_erase (P : Prop) [Decidable P] (M : typeMap) (a k : String) :
    (if P then M.erase a else M).lookup k = if k = a ∧ P then none else M.lookup k := by
  by_cases hP : P <;> by_cases hk : k = a
  · subst hk; simp [hP, Finmap.lookup_erase]
  · simp [hP, hk, Finmap.lookup_erase_ne hk]
  · simp [hP]
  · simp [hP]

theorem lookup_Merge_some (m X : typeMap) (k : String) :
    (typeMap.Merge m (some X)).lookup k =
      if (k = "null" ∧ nullRule (X ∪ m)) ∨ (k = typeNumberInt ∧ floatRule (X ∪ m)) then none
      else (X ∪ m).lookup k := by
  rw [Merge_some, lookup_ite_erase, lookup_ite_erase]
  by_cases h1 : k = "null" ∧ nullRule (X ∪ m) <;>
    by_cases h2 : k = typeNumberInt ∧ floatRule (X ∪ m) <;> simp [h1, h2]
theorem lookup_singleton_some {k e j v : String}
    (h : (Finmap.singleton k e : typeMap).lookup j = some v) : j = k ∧ v = e := by
  have hj : j ∈ (Finmap.singleton k e : typeMap) := Finmap.mem_of_lookup_eq_some h
  have hjk : j = k := (Finmap.mem_singleton j k e).mp hj
  subst hjk
  rw [Finmap.lookup_singleton_eq] at h
  exact ⟨rfl, (Option.some.inj h).symm⟩

theorem lookup_union_some {X m : typeMap} {j v : String}
    (h : (X ∪ m).lookup j = some v) : X.lookup j = some v ∨ m.lookup j = some v := by
  by_cases hj : j ∈ X
  · rw [Finmap.lookup_union_left hj] at h; exact Or.inl h
  · rw [Finmap.lookup_union_right hj] at h; exact Or.inr h

theorem lookup_Merge_some_sub {m X : typeMap} {j v : String}
    (h : (typeMap.Merge m (some X)).lookup j = some v) : (X ∪ m).lookup j = some v := by
  rw [lookup_Merge_some] at h
  split at h
  · exact absurd h (by simp)
  · exact h

theorem NonEmptyExamples_Merge (k e : String) (o : Option typeMap) (he : e ≠ "")
    (ho : ∀ X, o = some X → NonEmptyExamples X) :
    NonEmptyExamples (typeMap.Merge (Finmap.singleton k e) o) := by
  intro j v hj
  cases o with
  | none =>
    rw [typeMap.Merge] at hj
    rw [(lookup_singleton_some hj).2]; exact he
  | some X =>
    rcases lookup_union_some (lookup_Merge_some_sub hj) with h | h
    · exact ho X rfl j v h
    · rw [(lookup_singleton_some h).2]; exact he

theorem floatRule_of_mem {M : typeMap} (hM : NonEmptyExamples M) (h : typeNumberFloat ∈ M) :
    floatRule M := by
  obtain ⟨v, hv⟩ := Finmap.mem_iff.mp h
  unfold floatRule
  rw [index_eq_of_lookup hv, length_pos_iff_ne_empty]
  exact hM _ _ hv

theorem NonEmptyExamples_union_singleton {X : typeMap} {k e : String}
    (hX : NonEmptyExamples X) (he : e ≠ "") : NonEmptyExamples (X ∪ Finmap.singleton k e) := by
  intro j v hj
  rcases lookup_union_some hj with h | h
  · exact hX j v h
  · rw [(lookup_singleton_some h).2]; exact he

theorem float_absorbs_int (k e : String) (o : Option typeMap) (he : e ≠ "")
    (ho : ∀ X, o = some X → NonEmptyExamples X)
    (hf : k = typeNumberFloat ∨ ∃ X, o = some X ∧ typeNumberFloat ∈ X) :
    typeNumberFloat ∈ typeMap.Merge (Finmap.singleton k e) o
      ∧ typeNumberInt ∉ typeMap.Merge (Finmap.singleton k e) o := by
  cases o with
  | none =>
    rcases hf with rfl | ⟨X, hX, -⟩
    · rw [typeMap.Merge]
      constructor
      · exact (Finmap.mem_singleton _ _ _).mpr rfl
      · intro h
        exact absurd ((Finmap.mem_singleton _ _ _).mp h) (by decide)
    · exact absurd hX (by simp)
  | some X =>
    have hmem : typeNumberFloat ∈ X ∪ Finmap.singleton k e := by
      rw [Finmap.mem_union]
      rcases hf with rfl | ⟨Y, hY, hYf⟩
      · exact Or.inr ((Finmap.mem_singleton _ _ _).mpr rfl)
      · rw [Option.some.inj hY]; exact Or.inl hYf
    have hfr : floatRule (X ∪ Finmap.singleton k e) :=
      floatRule_of_mem (NonEmptyExamples_union_singleton (ho X rfl) he) hmem
    constructor
    · rw [Finmap.mem_iff] at hmem ⊢
      obtain ⟨v, hv⟩ := hmem
      refine ⟨v, ?_⟩
      rw [lookup_Merge_some, if_neg, hv]
      rintro (⟨h, -⟩ | ⟨h, -⟩) <;> exact absurd h (by decide)
    · rw [← Finmap.lookup_eq_none, lookup_Merge_some, if_pos (Or.inr ⟨rfl, hfr⟩)]

/-! ## Arrays of numbers -/

theorem keys_parseArray_numbers (q : String → String) (x : String) (c : Bool) :
    ∀ (ts : List String) (out : Schema),
      (parseArray q x (ts.map Value.TypeNumber) out c).keys
        = if ts = [] then out.keys else insert (x ++ "[]") out.keys := by
  intro ts
  induction ts with
  | nil => intro out; simp [parseArray]
  | cons t rest ih =>
    intro out
    rw [List.map_cons, parseArray, ih, parse_TypeNumber, keys_leafWrite]
    by_cases h : rest = [] <;> simp [h]


theorem numbers_promoted (q : String → String) (x : String) :
    ∀ (ts : List String) (out : Schema),
      (∀ t ∈ ts, t ≠ "") →
      (∀ E, out.lookup (x ++ "[]") = some E → NonEmptyExamples E) →
      ((∃ E, out.lookup (x ++ "[]") = some E ∧ typeNumberFloat ∈ E ∧ typeNumberInt ∉ E)
        ∨ ∃ t ∈ ts, ¬ IntegerForm t) →
      ∃ E, (parseArray q x (ts.map Value.TypeNumber) out true).lookup (x ++ "[]") = some E
        ∧ typeNumberFloat ∈ E ∧ typeNumberInt ∉ E := by
  intro ts
  induction ts with
  | nil =>
    intro out _ _ h
    rcases h with h | ⟨t, ht, -⟩
    · simpa [parseArray] using h
    · exact absurd ht (List.not_mem_nil t)
  | cons t rest ih =>
    intro out hne hgood h
    rw [List.map_cons, parseArray, parse_TypeNumber]
    have ht : t ≠ "" := hne t (List.mem_cons_self _ _)
    have hgood' : ∀ X, out.lookup (x ++ "[]") = some X → NonEmptyExamples X := hgood
    apply ih
    · exact fun u hu => hne u (List.mem_cons_of_mem _ hu)
    · intro E hE
      rw [lookup_leafWrite_self] at hE
      rw [← Option.some.inj hE]
      exact NonEmptyExamples_Merge _ _ _ ht hgood'
    · by_cases hdone : (∃ E, out.lookup (x ++ "[]") = some E ∧ typeNumberFloat ∈ E
          ∧ typeNumberInt ∉ E) ∨ ¬ IntegerForm t
      · left
        refine ⟨_, lookup_leafWrite_self _ _ _ _, ?_⟩
        apply float_absorbs_int _ _ _ ht hgood'
        rcases hdone with ⟨E, hE, hf, -⟩ | hni
        · exact Or.inr ⟨E, hE, hf⟩
        · left
          have hm : decimalRegex.MatchString t = false := by
            rw [← Bool.not_eq_true]
            exact fun hm => hni ((MatchString_iff_IntegerForm t).mp hm)
          simp [kindOf, hm]
      · right
        rw [not_or, not_not] at hdone
        rcases h with h | ⟨u, hu, hun⟩
        · exact absurd h hdone.1
        · rcases List.mem_cons.mp hu with rfl | hu'
          · exact absurd hdone.2 hun
          · exact ⟨u, hu', hun⟩

/-! ## A repeated observation of one kind -/

theorem index_Merge_some_float (m X : typeMap) :
    typeMap.index (typeMap.Merge m (some X)) typeNumberFloat
      = typeMap.index (X ∪ m) typeNumberFloat := by
  unfold typeMap.index
  rw [lookup_Merge_some, if_neg]
  rintro (⟨h, -⟩ | ⟨h, -⟩) <;> exact absurd h (by decide)

theorem keys_Merge_some_subset (m X : typeMap) :
    (typeMap.Merge m (some X)).keys ⊆ (X ∪ m).keys := by
  intro j hj
  rw [Finmap.mem_keys, Finmap.mem_iff] at hj ⊢
  obtain ⟨v, hv⟩ := hj
  exact ⟨v, lookup_Merge_some_sub hv⟩

theorem Cleaned_Merge_some (m X : typeMap) : Cleaned (typeMap.Merge m (some X)) := by
  constructor
  · intro h
    have hmem : "null" ∈ typeMap.Merge m (some X) := mem_of_index_length_pos h
    obtain ⟨v, hv⟩ := Finmap.mem_iff.mp hmem
    have hv' := hv
    rw [lookup_Merge_some] at hv'
    by_cases hn : nullRule (X ∪ m)
    · rw [if_pos (Or.inl ⟨rfl, hn⟩)] at hv'
      exact absurd hv' (by simp)
    · have hidx : typeMap.index (X ∪ m) "null" = typeMap.index (typeMap.Merge m (some X)) "null" := by
        rw [index_eq_of_lookup hv, index_eq_of_lookup (lookup_Merge_some_sub hv)]
      have hcard : (X ∪ m).keys.card ≤ 1 := by
        by_contra hc
        exact hn ⟨by rw [hidx]; exact h, by omega⟩
      exact le_trans (Finset.card_le_card (keys_Merge_some_subset m X)) hcard
  · intro hf
    have hf' : floatRule (X ∪ m) := by
      unfold floatRule at hf ⊢
      rwa [index_Merge_some_float] at hf
    rw [← Finmap.lookup_eq_none, lookup_Merge_some, if_pos (Or.inr ⟨rfl, hf'⟩)]

theorem Cleaned_singleton (k e : String) : Cleaned (Finmap.singleton k e) := by
  constructor
  · intro _
    rw [Finmap.keys_singleton]
    exact le_of_eq (Finset.card_singleton k)
  · intro hf h
    have h1 : typeNumberFloat = k :=
      (Finmap.mem_singleton _ _ _).mp (mem_of_index_length_pos hf)
    have h2 : typeNumberInt = k := (Finmap.mem_singleton _ _ _).mp h
    exact absurd (h1.trans h2.symm) (by decide)

theorem Cleaned_Merge_singleton (k e : String) (o : Option typeMap) :
    Cleaned (typeMap.Merge (Finmap.singleton k e) o) := by
  cases o with
  | none => exact Cleaned_singleton k e
  | some X => exact Cleaned_Merge_some _ X

theorem mem_or_float_Merge (k e : String) (o : Option typeMap) (hk : k ≠ "null") :
    k ∈ typeMap.Merge (Finmap.singleton k e) o
      ∨ (k = typeNumberInt ∧ floatRule (typeMap.Merge (Finmap.singleton k e) o)) := by
  cases o with
  | none => exact Or.inl ((Finmap.mem_singleton _ _ _).mpr rfl)
  | some X =>
    have hkV : k ∈ X ∪ Finmap.singleton k e :=
      Finmap.mem_union.mpr (Or.inr ((Finmap.mem_singleton _ _ _).mpr rfl))
    by_cases h : k = typeNumberInt ∧ floatRule (X ∪ Finmap.singleton k e)
    · right
      refine ⟨h.1, ?_⟩
      unfold floatRule
      rw [index_Merge_some_float]
      exact h.2
    · left
      obtain ⟨v, hv⟩ := Finmap.mem_iff.mp hkV
      rw [Finmap.mem_iff]
      refine ⟨v, ?_⟩
      rw [lookup_Merge_some, if_neg, hv]
      rintro (⟨h1, -⟩ | h1)
      · exact hk h1
      · exact h h1

theorem Merge_absorbed (k e : String) (E : typeMap) (hE : Cleaned E) (hk : k ≠ "null")
    (h : k ∈ E ∨ (k = typeNumberInt ∧ floatRule E)) :
    typeMap.Merge (Finmap.singleton k e) (some E) = E := by
  obtain ⟨hE1, hE2⟩ := hE
  have hfloat : floatRule (E ∪ Finmap.singleton k e) ↔ floatRule E := by
    unfold floatRule
    rw [index_union]
    by_cases hf : typeNumberFloat ∈ E
    · rw [if_pos hf]
    · rw [if_neg hf, index_of_not_mem hf]
      have : typeNumberFloat ∉ (Finmap.singleton k e : typeMap) := by
        intro hm
        have hkf : typeNumberFloat = k := (Finmap.mem_singleton _ _ _).mp hm
        rcases h with h | ⟨h, -⟩
        · exact hf (hkf ▸ h)
        · exact absurd (hkf.trans h) (by decide)
      rw [index_of_not_mem this]
  have hnull : ¬ nullRule (E ∪ Finmap.singleton k e) := by
    rintro ⟨hn1, hn2⟩
    rw [index_union] at hn1
    by_cases hnE : "null" ∈ E
    · rw [if_pos hnE] at hn1
      have hc := hE1 hn1
      rcases h with h | ⟨-, hfr⟩
      · have hkeys : (E ∪ Finmap.singleton k e).keys = E.keys := by
          ext j
          simp only [Finmap.mem_keys, Finmap.mem_union, Finmap.mem_singleton]
          constructor
          · rintro (hj | rfl)
            · exact hj
            · exact h
          · exact Or.inl
        rw [hkeys] at hn2
        omega
      · have hfE : typeNumberFloat ∈ E := mem_of_index_length_pos hfr
        have h2 : 1 < E.keys.card := by
          rw [Finset.one_lt_card]
          exact ⟨"null", Finmap.mem_keys.mpr hnE, typeNumberFloat, Finmap.mem_keys.mpr hfE,
            by decide⟩
        omega
    · rw [if_neg hnE] at hn1
      have : "null" ∉ (Finmap.singleton k e : typeMap) := by
        intro hm
        exact hk ((Finmap.mem_singleton _ _ _).mp hm).symm
      rw [index_of_not_mem this] at hn1
      exact absurd hn1 (by decide)
  apply Finmap.ext_lookup
  intro j
  rw [lookup_Merge_some]
  by_cases hj : j = typeNumberInt ∧ floatRule (E ∪ Finmap.singleton k e)
  · rw [if_pos (Or.inr hj)]
    obtain ⟨rfl, hfr⟩ := hj
    exact (Finmap.lookup_eq_none.mpr (hE2 (hfloat.mp hfr))).symm
  · rw [if_neg]
    · by_cases hjE : j ∈ E
      · exact Finmap.lookup_union_left hjE
      · rw [Finmap.lookup_union_right hjE, Finmap.lookup_eq_none.mpr hjE,
          Finmap.lookup_eq_none]
        intro hm
        have hjk : j = k := (Finmap.mem_singleton _ _ _).mp hm
        subst hjk
        rcases h with h | ⟨h1, h2⟩
        · exact hjE h
        · exact hj ⟨h1, hfloat.mpr h2⟩
    · rintro (⟨-, h1⟩ | h1)
      · exact hnull h1
      · exact hj h1

theorem Merge_twice (k e1 e2 : String) (o : Option typeMap) (hk : k ≠ "null") :
    typeMap.Merge (Finmap.singleton k e2) (some (typeMap.Merge (Finmap.singleton k e1) o))
      = typeMap.Merge (Finmap.singleton k e1) o :=
  Merge_absorbed k e2 _ (Cleaned_Merge_singleton k e1 o) hk (mem_or_float_Merge k e1 o hk)

theorem kindOf_ne_null (c : Bool) (v : Value) (hv : v.isScalar = true) : kindOf c v ≠ "null" := by
  cases v with
  | TypeNumber s =>
    cases c <;> by_cases h : decimalRegex.MatchString s = true <;>
      simp only [kindOf, h, Bool.not_true, Bool.not_false, if_true, if_false,
        Bool.false_eq_true] <;> decide
  | TypeObject kvs => simp [Value.isScalar] at hv
  | TypeArray a => simp [Value.isScalar] at hv
  | _ =>
    simp only [kindOf]
    decide

theorem leafWrite_twice (p k e1 e2 : String) (out : Schema) (hk : k ≠ "null") :
    leafWrite p k e2 (leafWrite p k e1 out) = leafWrite p k e1 out := by
  have h := lookup_leafWrite_self p k e1 out
  conv_lhs => rw [leafWrite, h, Merge_twice k e1 e2 _ hk]
  rw [leafWrite, Finmap.insert_insert]

/-! ## Field paths under a root path -/

theorem append_left_cancel {p a b : String} (h : p ++ a = p ++ b) : a = b := by
  have h1 : (p ++ a).data = (p ++ b).data := by rw [h]
  rw [String.data_append, String.data_append] at h1
  exact String.ext (List.append_cancel_left h1)

theorem Prefixed_empty (p : String) : Prefixed p ∅ ∅ :=
  ⟨fun _ => rfl, fun _ hj => absurd hj (Finmap.not_mem_empty)⟩

theorem Prefixed_leafWrite (p x k e : String) (big small : Schema) (h : Prefixed p big small) :
    Prefixed p (leafWrite (p ++ x) k e big) (leafWrite x k e small) := by
  obtain ⟨h1, h2⟩ := h
  unfold leafWrite
  rw [h1 x]
  constructor
  · intro j
    by_cases hj : j = x
    · subst hj
      rw [Finmap.lookup_insert, Finmap.lookup_insert]
    · have hj' : p ++ j ≠ p ++ x := fun hh => hj (append_left_cancel hh)
      rw [Finmap.lookup_insert_of_ne _ hj', Finmap.lookup_insert_of_ne _ hj]
      exact h1 j
  · intro j hj
    rcases Finmap.mem_insert.mp hj with rfl | hj
    · exact ⟨x, Finmap.mem_insert.mpr (Or.inl rfl), rfl⟩
    · obtain ⟨k', hk', rfl⟩ := h2 j hj
      exact ⟨k', Finmap.mem_insert.mpr (Or.inr hk'), rfl⟩

theorem Prefixed_parse_scalar (q : String → String) (p : String) (c : Bool) (v : Value)
    (hv : v.isScalar = true) (x : String) (big small : Schema) (h : Prefixed p big small) :
    Prefixed p (parse q (p ++ x) v big c) (parse q x v small c) := by
  rw [parse_scalar q (p ++ x) v big c hv, parse_scalar q x v small c hv]
  exact Prefixed_leafWrite p x _ _ big small h

mutual
theorem Prefixed_parse (q : String → String) (p : String) (c : Bool) :
    ∀ (v : Value) (x : String) (big small : Schema), Prefixed p big small →
      Prefixed p (parse q (p ++ x) v big c) (parse q x v small c)
  | .TypeString s, x, big, small, h =>
    Prefixed_parse_scalar q p c (.TypeString s) rfl x big small h
  | .TypeNumber s, x, big, small, h =>
    Prefixed_parse_scalar q p c (.TypeNumber s) rfl x big small h
  | .TypeTrue, x, big, small, h =>
    Prefixed_parse_scalar q p c (.TypeTrue) rfl x big small h
  | .TypeFalse, x, big, small, h =>
    Prefixed_parse_scalar q p c (.TypeFalse) rfl x big small h
  | .TypeNull, x, big, small, h =>
    Prefixed_parse_scalar q p c (.TypeNull) rfl x big small h
  | .TypeObject kvs, x, big, small, h => by
    rw [parse, parse]
    exact Prefixed_parseObject q p c kvs x big small h
  | .TypeArray a, x, big, small, h => by
    rw [parse, parse]
    exact Prefixed_parseArray q p c a x big small h
theorem Prefixed_parseObject (q : String → String) (p : String) (c : Bool) :
    ∀ (kvs : List (String × Value)) (x : String) (big small : Schema), Prefixed p big small →
      Prefixed p (parseObject q (p ++ x) kvs big c) (parseObject q x kvs small c)
  | [], x, big, small, h => by
    rw [parseObject, parseObject]
    exact h
  | (k, v) :: rest, x, big, small, h => by
    rw [parseObject, parseObject]
    apply Prefixed_parseObject q p c rest x
    have := Prefixed_parse q p c v (x ++ "." ++ k) big small h
    rwa [← String.append_assoc, ← String.append_assoc] at this
theorem Prefixed_parseArray (q : String → String) (p : String) (c : Bool) :
    ∀ (a : List Value) (x : String) (big small : Schema), Prefixed p big small →
      Prefixed p (parseArray q (p ++ x) a big c) (parseArray q x a small c)
  | [], x, big, small, h => by
    rw [parseArray, parseArray]
    exact h
  | v :: rest, x, big, small, h => by
    rw [parseArray, parseArray]
    apply Prefixed_parseArray q p c rest x
    have := Prefixed_parse q p c v (x ++ "[]") big small h
    rwa [← String.append_assoc] at this
end

/-! ## The kinds kept by a sequence of merges -/

theorem nullRule_iff {V : typeMap} (hV : NonEmptyExamples V) :
    nullRule V ↔ "null" ∈ V ∧ ∃ y ∈ V, y ≠ "null" := by
  unfold nullRule
  constructor
  · rintro ⟨h1, h2⟩
    refine ⟨mem_of_index_length_pos h1, ?_⟩
    obtain ⟨a, ha, b, hb, hab⟩ := Finset.one_lt_card.mp h2
    by_cases h : a = "null"
    · exact ⟨b, Finmap.mem_keys.mp hb, fun hb' => hab (h.trans hb'.symm)⟩
    · exact ⟨a, Finmap.mem_keys.mp ha, h⟩
  · rintro ⟨h1, y, hy, hne⟩
    constructor
    · obtain ⟨v, hv⟩ := Finmap.mem_iff.mp h1
      rw [index_eq_of_lookup hv, length_pos_iff_ne_empty]
      exact hV _ _ hv
    · exact Finset.one_lt_card.mpr
        ⟨"null", Finmap.mem_keys.mpr h1, y, Finmap.mem_keys.mpr hy, fun h => hne h.symm⟩

theorem floatRule_iff {V : typeMap} (hV : NonEmptyExamples V) :
    floatRule V ↔ typeNumberFloat ∈ V :=
  ⟨fun h => mem_of_index_length_pos h, floatRule_of_mem hV⟩

theorem mem_Merge_some_iff (m X : typeMap) (hV : NonEmptyExamples (X ∪ m)) (x : String) :
    x ∈ typeMap.Merge m (some X) ↔
      x ∈ X ∪ m ∧ ¬ (x = "null" ∧ ∃ y ∈ X ∪ m, y ≠ "null")
        ∧ ¬ (x = typeNumberInt ∧ typeNumberFloat ∈ X ∪ m) := by
  rw [← Finmap.lookup_isSome, lookup_Merge_some]
  have hn := nullRule_iff hV
  have hf := floatRule_iff hV
  by_cases hc : (x = "null" ∧ nullRule (X ∪ m)) ∨ (x = typeNumberInt ∧ floatRule (X ∪ m))
  · rw [if_pos hc]
    simp only [Option.isSome_none, Bool.false_eq_true, false_iff]
    rintro ⟨-, h1, h2⟩
    rcases hc with ⟨a, b⟩ | ⟨a, b⟩
    · exact h1 ⟨a, (hn.mp b).2⟩
    · exact h2 ⟨a, hf.mp b⟩
  · rw [if_neg hc, Finmap.lookup_isSome]
    constructor
    · intro hx
      refine ⟨hx, ?_, ?_⟩
      · rintro ⟨a, b⟩
        exact hc (Or.inl ⟨a, hn.mpr ⟨a ▸ hx, b⟩⟩)
      · rintro ⟨a, b⟩
        exact hc (Or.inr ⟨a, hf.mpr b⟩)
    · exact fun h => h.1

theorem KeptKind_float {ks : List String} :
    KeptKind ks typeNumberFloat ↔ typeNumberFloat ∈ ks := by
  unfold KeptKind
  constructor
  · exact fun h => h.1
  · intro h
    exact ⟨h, fun h' => absurd h'.1 (by decide), fun h' => absurd h'.1 (by decide)⟩

theorem KeptKind_append (ks : List String) (a x : String) :
    ((KeptKind ks x ∨ x = a)
        ∧ ¬ (x = "null" ∧ ∃ y, (KeptKind ks y ∨ y = a) ∧ y ≠ "null")
        ∧ ¬ (x = typeNumberInt ∧ (KeptKind ks typeNumberFloat ∨ typeNumberFloat = a)))
      ↔ KeptKind (ks ++ [a]) x := by
  have hex : (∃ y, (KeptKind ks y ∨ y = a) ∧ y ≠ "null")
      ↔ ∃ y ∈ ks ++ [a], y ≠ "null" := by
    constructor
    · rintro ⟨y, hy | hy, hne⟩
      · exact ⟨y, List.mem_append.mpr (Or.inl hy.1), hne⟩
      · exact ⟨y, List.mem_append.mpr (Or.inr (List.mem_singleton.mpr hy)), hne⟩
    · rintro ⟨y, hy, hne⟩
      rcases List.mem_append.mp hy with hy | hy
      · by_cases hk : KeptKind ks y
        · exact ⟨y, Or.inl hk, hne⟩
        · have hf : typeNumberFloat ∈ ks := by
            by_contra hf
            exact hk ⟨hy, fun h => hne h.1, fun h => hf h.2⟩
          exact ⟨typeNumberFloat, Or.inl (KeptKind_float.mpr hf), by decide⟩
      · exact ⟨y, Or.inr (List.mem_singleton.mp hy), hne⟩
  have hfl : (KeptKind ks typeNumberFloat ∨ typeNumberFloat = a)
      ↔ typeNumberFloat ∈ ks ++ [a] := by
    rw [KeptKind_float, List.mem_append, List.mem_singleton]
  rw [hex, hfl]
  unfold KeptKind
  constructor
  · rintro ⟨h1, h2, h3⟩
    refine ⟨?_, h2, h3⟩
    rcases h1 with h1 | h1
    · exact List.mem_append.mpr (Or.inl h1.1)
    · exact List.mem_append.mpr (Or.inr (List.mem_singleton.mpr h1))
  · rintro ⟨h1, h2, h3⟩
    refine ⟨?_, h2, h3⟩
    rcases List.mem_append.mp h1 with h1 | h1
    · left
      refine ⟨h1, ?_, ?_⟩
      · rintro ⟨hx, y, hy, hne⟩
        exact h2 ⟨hx, y, List.mem_append.mpr (Or.inl hy), hne⟩
      · rintro ⟨hx, hf⟩
        exact h3 ⟨hx, List.mem_append.mpr (Or.inl hf)⟩
    · exact Or.inr (List.mem_singleton.mp h1)

theorem foldMerge_append (l : List (String × String)) (o : String × String) :
    foldMerge (l ++ [o]) = some (typeMap.Merge (Finmap.singleton o.1 o.2) (foldMerge l)) := by
  simp [foldMerge, List.foldl_append]

theorem foldMerge_spec (l : List (String × String)) (hne : ∀ o ∈ l, o.2 ≠ "") :
    (l = [] ∧ foldMerge l = none)
      ∨ ∃ E, foldMerge l = some E ∧ NonEmptyExamples E
          ∧ ∀ x, x ∈ E ↔ KeptKind (l.map Prod.fst) x := by
  induction l using List.reverseRecOn with
  | nil => exact Or.inl ⟨rfl, rfl⟩
  | append_singleton l o ih =>
    right
    have ho : o.2 ≠ "" := hne o (List.mem_append.mpr (Or.inr (List.mem_singleton.mpr rfl)))
    have ih' := ih (fun u hu => hne u (List.mem_append.mpr (Or.inl hu)))
    refine ⟨_, foldMerge_append l o, ?_, ?_⟩
    · apply NonEmptyExamples_Merge _ _ _ ho
      intro X hX
      rcases ih' with ⟨-, h⟩ | ⟨E, hE, hEne, -⟩
      · rw [h] at hX; exact absurd hX (by simp)
      · rw [hE] at hX; rw [← Option.some.inj hX]; exact hEne
    · intro x
      rw [List.map_append, List.map_singleton]
      rcases ih' with ⟨hl, h⟩ | ⟨E, hE, hEne, hmem⟩
      · subst hl
        rw [h, typeMap.Merge, Finmap.mem_singleton]
        unfold KeptKind
        simp only [List.map_nil, List.nil_append, List.mem_singleton]
        constructor
        · rintro rfl
          refine ⟨rfl, ?_, ?_⟩
          · rintro ⟨h1, y, rfl, h2⟩; exact h2 h1
          · rintro ⟨h1, h2⟩; exact absurd (h2.trans h1) (by decide)
        · exact fun h => h.1
      · rw [hE, mem_Merge_some_iff _ _ (NonEmptyExamples_union_singleton hEne ho),
          ← KeptKind_append]
        simp only [Finmap.mem_union, Finmap.mem_singleton, hmem]

/-! ## The traversal as a fold of leaf writes -/

theorem observations_scalar (q : String → String) (c : Bool) (p : String) (v : Value)
    (hv : v.isScalar = true) :
    observations q c p v = [(p, kindOf c v, Value.String q v)] := by
  cases v with
  | TypeObject kvs => simp [Value.isScalar] at hv
  | TypeArray a => simp [Value.isScalar] at hv
  | _ => rw [observations]

theorem scalarLeaves_scalar (v : Value) (hv : v.isScalar = true) : scalarLeaves v = [v] := by
  cases v with
  | TypeObject kvs => simp [Value.isScalar] at hv
  | TypeArray a => simp [Value.isScalar] at hv
  | _ => rw [scalarLeaves]

theorem parse_eq_foldl_scalar (q : String → String) (c : Bool) (p : String) (v : Value)
    (out : Schema) (hv : v.isScalar = true) :
    parse q p v out c = (observations q c p v).foldl writeObs out := by
  rw [parse_scalar q p v out c hv, observations_scalar q c p v hv]
  rfl

theorem observations_leaves_scalar (q : String → String) (c : Bool) (p : String) (v : Value)
    (hv : v.isScalar = true) (o : String × String × String) (ho : o ∈ observations q c p v) :
    ∃ s ∈ scalarLeaves v, s.isScalar = true ∧ o.2.1 = kindOf c s ∧ o.2.2 = Value.String q s := by
  rw [observations_scalar q c p v hv, List.mem_singleton] at ho
  rw [scalarLeaves_scalar v hv]
  exact ⟨v, List.mem_singleton.mpr rfl, hv, by rw [ho], by rw [ho]⟩

mutual
theorem parse_eq_foldl (q : String → String) :
    ∀ (c : Bool) (p : String) (v : Value) (out : Schema),
      parse q p v out c = (observations q c p v).foldl writeObs out
  | c, p, .TypeString s, out => parse_eq_foldl_scalar q c p (.TypeString s) out rfl
  | c, p, .TypeNumber s, out => parse_eq_foldl_scalar q c p (.TypeNumber s) out rfl
  | c, p, .TypeTrue, out => parse_eq_foldl_scalar q c p .TypeTrue out rfl
  | c, p, .TypeFalse, out => parse_eq_foldl_scalar q c p .TypeFalse out rfl
  | c, p, .TypeNull, out => parse_eq_foldl_scalar q c p .TypeNull out rfl
  | c, p, .TypeObject kvs, out => by
    rw [parse, observations]; exact parseObject_eq_foldl q c p kvs out
  | c, p, .TypeArray a, out => by
    rw [parse, observations]; exact parseArray_eq_foldl q c p a out
theorem parseObject_eq_foldl (q : String → String) :
    ∀ (c : Bool) (p : String) (kvs : List (String × Value)) (out : Schema),
      parseObject q p kvs out c = (observationsObject q c p kvs).foldl writeObs out
  | c, p, [], out => by rw [parseObject, observationsObject]; rfl
  | c, p, (k, v) :: rest, out => by
    rw [parseObject, observationsObject, List.foldl_append,
      parseObject_eq_foldl q c p rest, parse_eq_foldl q c _ v out]
theorem parseArray_eq_foldl (q : String → String) :
    ∀ (c : Bool) (p : String) (a : List Value) (out : Schema),
      parseArray q p a out c = (observationsArray q c p a).foldl writeObs out
  | c, p, [], out => by rw [parseArray, observationsArray]; rfl
  | c, p, v :: rest, out => by
    rw [parseArray, observationsArray, List.foldl_append,
      parseArray_eq_foldl q c p rest, parse_eq_foldl q c _ v out]
end

mutual
theorem observations_leaves (q : String → String) :
    ∀ (c : Bool) (p : String) (v : Value), ∀ o ∈ observations q c p v,
      ∃ s ∈ scalarLeaves v, s.isScalar = true ∧ o.2.1 = kindOf c s ∧ o.2.2 = Value.String q s
  | c, p, .TypeString s, o, ho => observations_leaves_scalar q c p (.TypeString s) rfl o ho
  | c, p, .TypeNumber s, o, ho => observations_leaves_scalar q c p (.TypeNumber s) rfl o ho
  | c, p, .TypeTrue, o, ho => observations_leaves_scalar q c p .TypeTrue rfl o ho
  | c, p, .TypeFalse, o, ho => observations_leaves_scalar q c p .TypeFalse rfl o ho
  | c, p, .TypeNull, o, ho => observations_leaves_scalar q c p .TypeNull rfl o ho
  | c, p, .TypeObject kvs, o, ho => by
    rw [observations] at ho
    rw [scalarLeaves]
    exact observationsObject_leaves q c p kvs o ho
  | c, p, .TypeArray a, o, ho => by
    rw [observations] at ho
    rw [scalarLeaves]
    exact observationsArray_leaves q c p a o ho
theorem observationsObject_leaves (q : String → String) :
    ∀ (c : Bool) (p : String) (kvs : List (String × Value)), ∀ o ∈ observationsObject q c p kvs,
      ∃ s ∈ scalarLeavesObject kvs,
        s.isScalar = true ∧ o.2.1 = kindOf c s ∧ o.2.2 = Value.String q s
  | c, p, [], o, ho => by
    rw [observationsObject] at ho
    exact absurd ho (List.not_mem_nil o)
  | c, p, (k, v) :: rest, o, ho => by
    rw [observationsObject, List.mem_append] at ho
    rw [scalarLeavesObject]
    rcases ho with ho | ho
    · obtain ⟨s, hs, h⟩ := observations_leaves q c _ v o ho
      exact ⟨s, List.mem_append.mpr (Or.inl hs), h⟩
    · obtain ⟨s, hs, h⟩ := observationsObject_leaves q c p rest o ho
      exact ⟨s, List.mem_append.mpr (Or.inr hs), h⟩
theorem observationsArray_leaves (q : String → String) :
    ∀ (c : Bool) (p : String) (a : List Value), ∀ o ∈ observationsArray q c p a,
      ∃ s ∈ scalarLeavesArray a,
        s.isScalar = true ∧ o.2.1 = kindOf c s ∧ o.2.2 = Value.String q s
  | c, p, [], o, ho => by
    rw [observationsArray] at ho
    exact absurd ho (List.not_mem_nil o)
  | c, p, v :: rest, o, ho => by
    rw [observationsArray, List.mem_append] at ho
    rw [scalarLeavesArray]
    rcases ho with ho | ho
    · obtain ⟨s, hs, h⟩ := observations_leaves q c _ v o ho
      exact ⟨s, List.mem_append.mpr (Or.inl hs), h⟩
    · obtain ⟨s, hs, h⟩ := observationsArray_leaves q c p rest o ho
      exact ⟨s, List.mem_append.mpr (Or.inr hs), h⟩
end

theorem observations_eq_nil (q : String → String) (c : Bool) (p : String) (v : Value)
    (h : scalarLeaves v = []) : observations q c p v = [] := by
  rw [List.eq_nil_iff_forall_not_mem]
  intro o ho
  obtain ⟨s, hs, -⟩ := observations_leaves q c p v o ho
  rw [h] at hs
  exact absurd hs (List.not_mem_nil s)

/-! ## The kinds of an entry -/

theorem kindOf_mem_allowedKinds (c : Bool) (s : Value) (hs : s.isScalar = true) :
    kindOf c s ∈ allowedKinds c := by
  cases s with
  | TypeNumber t =>
    cases c <;> by_cases h : decimalRegex.MatchString t = true <;>
      simp [kindOf, allowedKinds, h]
  | TypeObject kvs => simp [Value.isScalar] at hs
  | TypeArray a => simp [Value.isScalar] at hs
  | _ => cases c <;> simp [kindOf, allowedKinds]

theorem mem_Merge_singleton_sub (k e : String) (o : Option typeMap) {j : String}
    (hj : j ∈ typeMap.Merge (Finmap.singleton k e) o) :
    j = k ∨ ∃ X, o = some X ∧ j ∈ X := by
  cases o with
  | none => exact Or.inl ((Finmap.mem_singleton _ _ _).mp hj)
  | some X =>
    have h := keys_Merge_some_subset (Finmap.singleton k e) X (Finmap.mem_keys.mpr hj)
    rw [Finmap.mem_keys, Finmap.mem_union] at h
    rcases h with h | h
    · exact Or.inr ⟨X, rfl, h⟩
    · exact Or.inl ((Finmap.mem_singleton _ _ _).mp h)

theorem Merge_singleton_nonempty (k e : String) (o : Option typeMap) :
    (typeMap.Merge (Finmap.singleton k e) o).keys.Nonempty := by
  cases o with
  | none => exact ⟨k, Finmap.mem_keys.mpr ((Finmap.mem_singleton _ _ _).mpr rfl)⟩
  | some X =>
    have hk : k ∈ X ∪ Finmap.singleton k e :=
      Finmap.mem_union.mpr (Or.inr ((Finmap.mem_singleton _ _ _).mpr rfl))
    by_cases hf : floatRule (X ∪ Finmap.singleton k e)
    · refine ⟨typeNumberFloat, Finmap.mem_keys.mpr (mem_of_index_length_pos ?_)⟩
      rw [index_Merge_some_float]
      exact hf
    · rw [Merge_some, if_neg hf]
      by_cases hn : nullRule (X ∪ Finmap.singleton k e)
      · rw [if_pos hn]
        obtain ⟨a, ha, b, hb, hab⟩ := Finset.one_lt_card.mp hn.2
        by_cases h : a = "null"
        · refine ⟨b, Finmap.mem_keys.mpr (Finmap.mem_erase.mpr ⟨?_, Finmap.mem_keys.mp hb⟩)⟩
          exact fun hb' => hab (h.trans hb'.symm)
        · exact ⟨a, Finmap.mem_keys.mpr (Finmap.mem_erase.mpr ⟨h, Finmap.mem_keys.mp ha⟩)⟩
      · rw [if_neg hn]
        exact ⟨k, Finmap.mem_keys.mpr hk⟩

theorem lookup_writeObs (out : Schema) (o : String × String × String) (P : String) :
    (writeObs out o).lookup P
      = if P = o.1 then some (typeMap.Merge (Finmap.singleton o.2.1 o.2.2) (out.lookup o.1))
        else out.lookup P := by
  unfold writeObs leafWrite
  by_cases h : P = o.1
  · subst h
    rw [if_pos rfl, Finmap.lookup_insert]
  · rw [if_neg h, Finmap.lookup_insert_of_ne _ h]

theorem kinds_foldl_writeObs (c : Bool) (obs : List (String × String × String))
    (hobs : ∀ o ∈ obs, o.2.1 ∈ allowedKinds c) :
    ∀ (out : Schema),
      (∀ P E, out.lookup P = some E → E.keys.Nonempty ∧ ∀ k ∈ E, k ∈ allowedKinds c) →
      ∀ P E, (obs.foldl writeObs out).lookup P = some E →
        E.keys.Nonempty ∧ ∀ k ∈ E, k ∈ allowedKinds c := by
  induction obs with
  | nil => intro out h; exact h
  | cons o rest ih =>
    intro out h
    rw [List.foldl_cons]
    apply ih (fun u hu => hobs u (List.mem_cons_of_mem _ hu))
    intro P E hE
    rw [lookup_writeObs] at hE
    by_cases hP : P = o.1
    · rw [if_pos hP] at hE
      rw [← Option.some.inj hE]
      refine ⟨Merge_singleton_nonempty _ _ _, fun k hk => ?_⟩
      rcases mem_Merge_singleton_sub _ _ _ hk with rfl | ⟨X, hX, hkX⟩
      · exact hobs o (List.mem_cons_self _ _)
      · exact (h o.1 X hX).2 k hkX
    · rw [if_neg hP] at hE
      exact h P E hE

theorem observations_allowedKinds (q : String → String) (c : Bool) (p : String) (v : Value) :
    ∀ o ∈ observations q c p v, o.2.1 ∈ allowedKinds c := by
  intro o ho
  obtain ⟨s, -, hs, hk, -⟩ := observations_leaves q c p v o ho
  rw [hk]
  exact kindOf_mem_allowedKinds c s hs

/-! ## Leaf writes that change nothing -/

theorem insert_of_lookup {β : Type} (p : String) (e : β) (out : Finmap (fun _ : String => β))
    (h : out.lookup p = some e) : out.insert p e = out := by
  apply Finmap.ext_lookup
  intro j
  by_cases hj : j = p
  · subst hj; rw [Finmap.lookup_insert, h]
  · rw [Finmap.lookup_insert_of_ne _ hj]

theorem floatRule_Merge_some_iff (m X : typeMap) :
    floatRule (typeMap.Merge m (some X)) ↔ floatRule (X ∪ m) := by
  unfold floatRule
  rw [index_Merge_some_float]

theorem Absorbed_writeObs_self (out : Schema) (o : String × String × String)
    (hk : o.2.1 ≠ "null") : Absorbed (writeObs out o) o := by
  refine ⟨_, ?_, Cleaned_Merge_singleton o.2.1 o.2.2 (out.lookup o.1),
    mem_or_float_Merge o.2.1 o.2.2 (out.lookup o.1) hk⟩
  rw [lookup_writeObs, if_pos rfl]

theorem Absorbed_writeObs (out : Schema) (o o' : String × String × String)
    (hk : o.2.1 ≠ "null") (h : Absorbed out o) : Absorbed (writeObs out o') o := by
  obtain ⟨E, hE, hc, hm⟩ := h
  by_cases hp : o.1 = o'.1
  · refine ⟨typeMap.Merge (Finmap.singleton o'.2.1 o'.2.2) (some E), ?_,
      Cleaned_Merge_some _ E, ?_⟩
    · rw [lookup_writeObs, if_pos hp, ← hp, hE]
    · have hfl : floatRule E → floatRule (E ∪ Finmap.singleton o'.2.1 o'.2.2) :=
        fun hf => floatRule_union_of_index E _ hf
      rcases hm with hm | ⟨h1, h2⟩
      · by_cases hint : o.2.1 = typeNumberInt ∧ floatRule (E ∪ Finmap.singleton o'.2.1 o'.2.2)
        · exact Or.inr ⟨hint.1, (floatRule_Merge_some_iff _ E).mpr hint.2⟩
        · left
          obtain ⟨v, hv⟩ := Finmap.mem_iff.mp hm
          rw [Finmap.mem_iff]
          refine ⟨v, ?_⟩
          rw [lookup_Merge_some, if_neg, Finmap.lookup_union_left hm, hv]
          rintro (⟨h1, -⟩ | h1)
          · exact hk h1
          · exact hint h1
      · exact Or.inr ⟨h1, (floatRule_Merge_some_iff _ E).mpr (hfl h2)⟩
  · refine ⟨E, ?_, hc, hm⟩
    rw [lookup_writeObs, if_neg hp, hE]

theorem writeObs_of_Absorbed (out : Schema) (o : String × String × String)
    (hk : o.2.1 ≠ "null") (h : Absorbed out o) : writeObs out o = out := by
  obtain ⟨E, hE, hc, hm⟩ := h
  unfold writeObs leafWrite
  rw [hE, Merge_absorbed o.2.1 o.2.2 E hc hk hm]
  exact insert_of_lookup o.1 E out hE

theorem Absorbed_foldl (obs : List (String × String × String)) (o : String × String × String)
    (hk : o.2.1 ≠ "null") :
    ∀ out : Schema, Absorbed out o → Absorbed (obs.foldl writeObs out) o := by
  induction obs with
  | nil => intro out h; exact h
  | cons o' rest ih =>
    intro out h
    rw [List.foldl_cons]
    exact ih _ (Absorbed_writeObs out o o' hk h)

theorem Absorbed_foldl_mem (obs : List (String × String × String))
    (hobs : ∀ o ∈ obs, o.2.1 ≠ "null") :
    ∀ out : Schema, ∀ o ∈ obs, Absorbed (obs.foldl writeObs out) o := by
  induction obs with
  | nil => intro out o ho; exact absurd ho (List.not_mem_nil o)
  | cons o' rest ih =>
    intro out o ho
    rw [List.foldl_cons]
    rcases List.mem_cons.mp ho with rfl | ho
    · exact Absorbed_foldl rest o (hobs o (List.mem_cons_self _ _)) _
        (Absorbed_writeObs_self out o (hobs o (List.mem_cons_self _ _)))
    · exact ih (fun u hu => hobs u (List.mem_cons_of_mem _ hu)) _ o ho

theorem foldl_of_Absorbed (obs : List (String × String × String)) (S : Schema)
    (h : ∀ o ∈ obs, o.2.1 ≠ "null" ∧ Absorbed S o) : obs.foldl writeObs S = S := by
  induction obs with
  | nil => rfl
  | cons o rest ih =>
    rw [List.foldl_cons, writeObs_of_Absorbed S o (h o (List.mem_cons_self _ _)).1
      (h o (List.mem_cons_self _ _)).2]
    exact ih (fun u hu => h u (List.mem_cons_of_mem _ hu))

theorem foldl_writeObs_twice (obs : List (String × String × String))
    (hobs : ∀ o ∈ obs, o.2.1 ≠ "null") (out : Schema) :
    obs.foldl writeObs (obs.foldl writeObs out) = obs.foldl writeObs out :=
  foldl_of_Absorbed obs _ (fun o ho => ⟨hobs o ho, Absorbed_foldl_mem obs hobs out o ho⟩)

theorem observations_ne_null (q : String → String) (c : Bool) (p : String) (v : Value) :
    ∀ o ∈ observations q c p v, o.2.1 ≠ "null" := by
  intro o ho
  obtain ⟨s, -, hs, hk, -⟩ := observations_leaves q c p v o ho
  rw [hk]
  exact kindOf_ne_null c s hs

theorem parse_twice (q : String → String) (c : Bool) (p : String) (v : Value) (out : Schema) :
    parse q p v (parse q p v out c) c = parse q p v out c := by
  rw [parse_eq_foldl q c p v out, parse_eq_foldl]
  exact foldl_writeObs_twice _ (observations_ne_null q c p v) out

theorem parseArray_doubled (q : String → String) (c : Bool) (p : String) :
    ∀ (arr : List Value) (out : Schema),
      parseArray q p (arr.flatMap (fun v => [v, v])) out c = parseArray q p arr out c := by
  intro arr
  induction arr with
  | nil => intro out; rfl
  | cons v rest ih =>
    intro out
    rw [List.flatMap_cons]
    simp only [List.cons_append, List.nil_append]
    rw [parseArray, parseArray, parseArray, parse_twice, ih]

/-! ## The kinds left by a traversal -/

theorem not_nullRule_of_not_mem {V : typeMap} (h : "null" ∉ V) : ¬ nullRule V :=
  fun hn => h (mem_of_index_length_pos hn.1)

theorem floatRule_iff_of_Guarded {V : typeMap} (hV : Guarded V) :
    floatRule V ↔ typeNumberFloat ∈ V := by
  constructor
  · exact fun h => mem_of_index_length_pos h
  · intro h
    obtain ⟨e, he⟩ := Finmap.mem_iff.mp h
    unfold floatRule
    rw [index_eq_of_lookup he, length_pos_iff_ne_empty]
    exact hV.2 e he

theorem mem_Merge_some_of_Guarded (m X : typeMap) (hV : Guarded (X ∪ m)) (k : String) :
    k ∈ typeMap.Merge m (some X)
      ↔ k ∈ X ∪ m ∧ ¬ (k = typeNumberInt ∧ typeNumberFloat ∈ X ∪ m) := by
  rw [← Finmap.lookup_isSome, lookup_Merge_some]
  have hn := not_nullRule_of_not_mem hV.1
  have hf := floatRule_iff_of_Guarded hV
  by_cases hc : k = typeNumberInt ∧ floatRule (X ∪ m)
  · rw [if_pos (Or.inr hc)]
    simp only [Option.isSome_none, Bool.false_eq_true, false_iff]
    rintro ⟨-, h2⟩
    exact h2 ⟨hc.1, hf.mp hc.2⟩
  · rw [if_neg, Finmap.lookup_isSome]
    · constructor
      · exact fun hx => ⟨hx, fun h => hc ⟨h.1, hf.mpr h.2⟩⟩
      · exact fun h => h.1
    · rintro (⟨-, h⟩ | h)
      · exact hn h
      · exact hc h

theorem Guarded_union_singleton {X : typeMap} {k e : String} (hX : Guarded X)
    (hk : k ≠ "null") (he : k = typeNumberFloat → e ≠ "") :
    Guarded (X ∪ Finmap.singleton k e) := by
  constructor
  · rw [Finmap.mem_union, Finmap.mem_singleton]
    rintro (h | h)
    · exact hX.1 h
    · exact hk h.symm
  · intro v hv
    rcases lookup_union_some hv with h | h
    · exact hX.2 v h
    · obtain ⟨h1, h2⟩ := lookup_singleton_some h
      rw [h2]
      exact he h1.symm

theorem Guarded_singleton {k e : String} (hk : k ≠ "null")
    (he : k = typeNumberFloat → e ≠ "") : Guarded (Finmap.singleton k e) := by
  constructor
  · rw [Finmap.mem_singleton]
    exact fun h => hk h.symm
  · intro v hv
    obtain ⟨h1, h2⟩ := lookup_singleton_some hv
    rw [h2]
    exact he h1.symm

theorem Guarded_Merge_some {X : typeMap} {k e : String} (hX : Guarded X)
    (hk : k ≠ "null") (he : k = typeNumberFloat → e ≠ "") :
    Guarded (typeMap.Merge (Finmap.singleton k e) (some X)) := by
  have hV := Guarded_union_singleton hX hk he
  constructor
  · intro h
    exact hV.1 (Finmap.mem_keys.mp (keys_Merge_some_subset _ X (Finmap.mem_keys.mpr h)))
  · intro v hv
    exact hV.2 v (lookup_Merge_some_sub hv)

theorem ObservedAt_append_singleton (l : List (String × String × String))
    (o : String × String × String) (P k : String) :
    ObservedAt (l ++ [o]) P k ↔ ObservedAt l P k ∨ (o.1 = P ∧ o.2.1 = k) := by
  unfold ObservedAt
  constructor
  · rintro ⟨e, he⟩
    rcases List.mem_append.mp he with h | h
    · exact Or.inl ⟨e, h⟩
    · rw [List.mem_singleton] at h
      rw [← h]
      exact Or.inr ⟨rfl, rfl⟩
  · rintro (⟨e, he⟩ | ⟨h1, h2⟩)
    · exact ⟨e, List.mem_append.mpr (Or.inl he)⟩
    · refine ⟨o.2.2, List.mem_append.mpr (Or.inr (List.mem_singleton.mpr ?_))⟩
      rw [← h1, ← h2]

theorem mem_writeObs (out : Schema) (o : String × String × String) (P : String) :
    P ∈ writeObs out o ↔ P = o.1 ∨ P ∈ out := by
  unfold writeObs leafWrite
  exact Finmap.mem_insert

theorem foldl_writeObs_spec (obs : List (String × String × String))
    (H : ∀ o ∈ obs, o.2.1 ≠ "null" ∧ (o.2.1 = typeNumberFloat → o.2.2 ≠ "")) :
    (∀ P, P ∈ obs.foldl writeObs ∅ ↔ ∃ o ∈ obs, o.1 = P)
    ∧ ∀ P E, (obs.foldl writeObs ∅).lookup P = some E →
        Guarded E ∧ ∀ k, k ∈ E ↔ KindsSpec obs P k := by
  induction obs using List.reverseRecOn with
  | nil =>
    refine ⟨fun P => ⟨fun h => absurd h Finmap.not_mem_empty, ?_⟩,
      fun P E h => absurd h (by simp)⟩
    rintro ⟨o, ho, -⟩
    exact absurd ho (List.not_mem_nil o)
  | append_singleton l o ih =>
    obtain ⟨ih1, ih2⟩ := ih (fun u hu => H u (List.mem_append.mpr (Or.inl hu)))
    obtain ⟨hk, he⟩ := H o (List.mem_append.mpr (Or.inr (List.mem_singleton.mpr rfl)))
    rw [List.foldl_append, List.foldl_cons, List.foldl_nil]
    constructor
    · intro P
      rw [mem_writeObs, ih1]
      constructor
      · rintro (h | ⟨u, hu, hP⟩)
        · exact ⟨o, List.mem_append.mpr (Or.inr (List.mem_singleton.mpr rfl)), h.symm⟩
        · exact ⟨u, List.mem_append.mpr (Or.inl hu), hP⟩
      · rintro ⟨u, hu, hP⟩
        rcases List.mem_append.mp hu with h | h
        · exact Or.inr ⟨u, h, hP⟩
        · rw [List.mem_singleton] at h
          rw [h] at hP
          exact Or.inl hP.symm
    · intro P E hE
      rw [lookup_writeObs] at hE
      by_cases hP : P = o.1
      · rw [if_pos hP] at hE
        have hE' := (Option.some.inj hE).symm
        subst hP
        cases hl : (l.foldl writeObs ∅).lookup o.1 with
        | none =>
          rw [hl, typeMap.Merge] at hE'
          rw [hE']
          refine ⟨Guarded_singleton hk he, fun k => ?_⟩
          have hnone : ∀ k', ¬ ObservedAt l o.1 k' := by
            rintro k' ⟨e, hmem⟩
            have : o.1 ∈ l.foldl writeObs ∅ := (ih1 o.1).mpr ⟨_, hmem, rfl⟩
            exact (Finmap.lookup_eq_none.mp hl) this
          unfold KindsSpec
          rw [Finmap.mem_singleton, ObservedAt_append_singleton,
            ObservedAt_append_singleton]
          constructor
          · rintro rfl
            refine ⟨Or.inr ⟨rfl, rfl⟩, ?_⟩
            rintro ⟨h1, h2 | ⟨-, h2⟩⟩
            · exact hnone _ h2
            · exact absurd (h2.symm.trans h1) (by decide)
          · rintro ⟨h1 | ⟨-, h1⟩, -⟩
            · exact absurd h1 (hnone k)
            · exact h1.symm
        | some X =>
          rw [hl] at hE'
          obtain ⟨hG, hX⟩ := ih2 o.1 X hl
          rw [hE']
          refine ⟨Guarded_Merge_some hG hk he, fun k => ?_⟩
          have hfloat : typeNumberFloat ∈ X ↔ ObservedAt l o.1 typeNumberFloat := by
            rw [hX]
            unfold KindsSpec
            constructor
            · exact fun h => h.1
            · exact fun h => ⟨h, fun h' => absurd h'.1 (by decide)⟩
          rw [mem_Merge_some_of_Guarded _ _ (Guarded_union_singleton hG hk he)]
          unfold KindsSpec
          rw [ObservedAt_append_singleton, ObservedAt_append_singleton, Finmap.mem_union,
            Finmap.mem_union, Finmap.mem_singleton, Finmap.mem_singleton, hfloat, hX]
          unfold KindsSpec
          constructor
          · rintro ⟨h1, h2⟩
            refine ⟨?_, ?_⟩
            · rcases h1 with h1 | h1
              · exact Or.inl h1.1
              · exact Or.inr ⟨rfl, h1.symm⟩
            · rintro ⟨h3, h4⟩
              apply h2
              refine ⟨h3, ?_⟩
              rcases h4 with h4 | ⟨-, h4⟩
              · exact Or.inl h4
              · exact Or.inr h4.symm
          · rintro ⟨h1, h2⟩
            have h2' : ¬ (k = typeNumberInt
                ∧ (ObservedAt l o.1 typeNumberFloat ∨ typeNumberFloat = o.2.1)) := by
              rintro ⟨h3, h4⟩
              apply h2
              refine ⟨h3, ?_⟩
              rcases h4 with h4 | h4
              · exact Or.inl h4
              · exact Or.inr ⟨rfl, h4.symm⟩
            refine ⟨?_, h2'⟩
            rcases h1 with h1 | ⟨-, h1⟩
            · exact Or.inl ⟨h1, fun h => h2' ⟨h.1, Or.inl h.2⟩⟩
            · exact Or.inr h1.symm
      · rw [if_neg hP] at hE
        obtain ⟨hG, hX⟩ := ih2 P E hE
        refine ⟨hG, fun k => ?_⟩
        rw [hX]
        unfold KindsSpec
        rw [ObservedAt_append_singleton, ObservedAt_append_singleton]
        have hne : ¬ o.1 = P := fun h => hP h.symm
        simp only [hne, false_and, or_false]

theorem mem_observationsArray (q : String → String) (c : Bool) (p : String)
    (o : String × String × String) :
    ∀ arr : List Value,
      o ∈ observationsArray q c p arr ↔ ∃ v ∈ arr, o ∈ observations q c (p ++ "[]") v := by
  intro arr
  induction arr with
  | nil => simp [observationsArray]
  | cons v rest ih =>
    rw [observationsArray, List.mem_append, ih]
    simp only [List.mem_cons, exists_eq_or_imp]

theorem mem_scalarLeavesArray (s : Value) :
    ∀ arr : List Value, s ∈ scalarLeavesArray arr ↔ ∃ v ∈ arr, s ∈ scalarLeaves v := by
  intro arr
  induction arr with
  | nil => simp [scalarLeavesArray]
  | cons v rest ih =>
    rw [scalarLeavesArray, List.mem_append, ih]
    simp only [List.mem_cons, exists_eq_or_imp]

theorem kindOf_eq_float (c : Bool) (s : Value) (hs : s.isScalar = true)
    (h : kindOf c s = typeNumberFloat) : ∃ t, s = .TypeNumber t := by
  cases s with
  | TypeNumber t => exact ⟨t, rfl⟩
  | TypeObject kvs => simp [Value.isScalar] at hs
  | TypeArray a => simp [Value.isScalar] at hs
  | _ =>
    simp only [kindOf] at h
    exact absurd h (by decide)

theorem observations_guarded (q : String → String) (c : Bool) (p : String) (v : Value)
    (hv : NumbersNonEmpty v) :
    ∀ o ∈ observations q c p v,
      o.2.1 ≠ "null" ∧ (o.2.1 = typeNumberFloat → o.2.2 ≠ "") := by
  intro o ho
  refine ⟨observations_ne_null q c p v o ho, fun hf => ?_⟩
  obtain ⟨s, hs, hsc, hk, he⟩ := observations_leaves q c p v o ho
  rw [hk] at hf
  obtain ⟨t, rfl⟩ := kindOf_eq_float c s hsc hf
  rw [he]
  exact hv t hs

theorem kinds_congr_of_mem_iff (obs obs' : List (String × String × String))
    (H : ∀ o ∈ obs, o.2.1 ≠ "null" ∧ (o.2.1 = typeNumberFloat → o.2.2 ≠ ""))
    (hmem : ∀ o, o ∈ obs ↔ o ∈ obs') :
    (obs.foldl writeObs ∅).keys = (obs'.foldl writeObs ∅).keys
    ∧ ∀ P, ((obs.foldl writeObs ∅).lookup P).map Finmap.keys
        = ((obs'.foldl writeObs ∅).lookup P).map Finmap.keys := by
  have H' : ∀ o ∈ obs', o.2.1 ≠ "null" ∧ (o.2.1 = typeNumberFloat → o.2.2 ≠ "") :=
    fun o ho => H o ((hmem o).mpr ho)
  obtain ⟨h1, h2⟩ := foldl_writeObs_spec obs H
  obtain ⟨h1', h2'⟩ := foldl_writeObs_spec obs' H'
  have hobs : ∀ P k, ObservedAt obs P k ↔ ObservedAt obs' P k := by
    intro P k
    unfold ObservedAt
    simp only [hmem]
  have hkeys : ∀ P, P ∈ obs.foldl writeObs ∅ ↔ P ∈ obs'.foldl writeObs ∅ := by
    intro P
    rw [h1, h1']
    simp only [hmem]
  refine ⟨?_, fun P => ?_⟩
  · ext P
    rw [Finmap.mem_keys, Finmap.mem_keys]
    exact hkeys P
  · cases hl : (obs.foldl writeObs ∅).lookup P with
    | none =>
      have : P ∉ obs'.foldl writeObs ∅ :=
        fun h => (Finmap.lookup_eq_none.mp hl) ((hkeys P).mpr h)
      rw [Finmap.lookup_eq_none.mpr this]
    | some E =>
      have hP : P ∈ obs'.foldl writeObs ∅ :=
        (hkeys P).mp (Finmap.mem_of_lookup_eq_some hl)
      obtain ⟨E', hE'⟩ := Finmap.mem_iff.mp hP
      rw [hE', Option.map_some', Option.map_some']
      congr 1
      ext k
      rw [Finmap.mem_keys, Finmap.mem_keys, (h2 P E hl).2, (h2' P E' hE').2]
      unfold KindsSpec
      rw [hobs, hobs]

/-! ## The rows of the renderers -/

theorem lookup_Schema_index (maps : Schema) (f t : String) :
    (Schema.index maps f).lookup t = exampleAt maps f t := by
  unfold Schema.index exampleAt
  cases maps.lookup f with
  | none => rfl
  | some E => rfl

theorem csvRecords_plain (range : String → typeMap → List (String × String))
    (ks : List String) (maps : Schema) :
    csvRecords range ks maps false false
      = ks.flatMap (fun f =>
          (range f (Schema.index maps f)).map (fun tc => [f, tc.1, tc.2])) := by
  simp [csvRecords]

theorem csvRecords_merged (range : String → typeMap → List (String × String))
    (ks : List String) (maps : Schema) :
    csvRecords range ks maps true false
      = ks.map (fun f =>
          [f, ";".intercalate ((range f (Schema.index maps f)).map Prod.fst),
            ";".intercalate ((range f (Schema.index maps f)).map Prod.snd)]) := by
  simp only [csvRecords, Bool.false_eq_true, if_false, List.nil_append, Bool.not_true,
    List.flatMap_def]
  induction ks with
  | nil => rfl
  | cons f rest ih => simp only [List.map_cons, List.flatten_cons, ih, List.singleton_append]

theorem csvRecords_header (range : String → typeMap → List (String × String))
    (ks : List String) (maps : Schema) (merge requireHeaders : Bool) :
    csvRecords range ks maps merge requireHeaders
      = (if requireHeaders then [["field", "type", "content"]] else [])
        ++ csvRecords range ks maps merge false := by
  cases requireHeaders <;> simp [csvRecords]

theorem writeList_eq_map_csvRecords (range : String → typeMap → List (String × String))
    (ks : List String) (maps : Schema) (merge requireHeaders : Bool) :
    writeList range ks maps merge requireHeaders
      = (csvRecords range ks maps merge requireHeaders).map
          (formatRecord (listFieldLen ks) (listTypeLen maps merge)) := by
  cases merge <;> cases requireHeaders <;>
    simp [writeList, csvRecords, formatRecord, List.map_flatMap, Function.comp_def]

theorem mem_csvRecords_plain (range : String → typeMap → List (String × String))
    (ks : List String) (maps : Schema) (h : RangeOracle maps range) (r : List String) :
    r ∈ csvRecords range ks maps false false
      ↔ ∃ f t c, r = [f, t, c] ∧ f ∈ ks ∧ exampleAt maps f t = some c := by
  rw [csvRecords_plain, List.mem_flatMap]
  constructor
  · rintro ⟨f, hf, hr⟩
    obtain ⟨tc, htc, rfl⟩ := List.mem_map.mp hr
    refine ⟨f, tc.1, tc.2, rfl, hf, ?_⟩
    rw [← lookup_Schema_index]
    exact ((h f).2 tc.1 tc.2).mp htc
  · rintro ⟨f, t, c, rfl, hf, he⟩
    refine ⟨f, hf, List.mem_map.mpr ⟨(t, c), ?_, rfl⟩⟩
    rw [← lookup_Schema_index] at he
    exact ((h f).2 t c).mpr he

theorem nodup_csvRecords_plain (range : String → typeMap → List (String × String))
    (ks : List String) (maps : Schema) (h : RangeOracle maps range) (hks : ks.Nodup) :
    (csvRecords range ks maps false false).Nodup := by
  rw [csvRecords_plain, List.nodup_flatMap]
  constructor
  · intro f _
    apply List.Nodup.map _ (h f).1
    intro a b hab
    simp only [List.cons.injEq, and_true, true_and] at hab
    exact Prod.ext hab.1 hab.2
  · refine List.Pairwise.imp ?_ hks
    intro f g hfg
    simp only [Function.onFun]
    intro r hr1 hr2
    obtain ⟨a, -, rfl⟩ := List.mem_map.mp hr1
    obtain ⟨b, -, hb⟩ := List.mem_map.mp hr2
    simp only [List.cons.injEq, and_true] at hb
    exact hfg hb.1.symm

/-! ## Iteration orders -/

theorem IsRange_empty : IsRange ∅ [] :=
  ⟨List.nodup_nil, fun t c => by simp⟩

theorem IsRange_insert {E : typeMap} {l : List (String × String)} (h : IsRange E l)
    {k : String} (e : String) (hk : k ∉ E) : IsRange (E.insert k e) ((k, e) :: l) := by
  obtain ⟨h1, h2⟩ := h
  constructor
  · rw [List.nodup_cons]
    refine ⟨fun hm => hk (Finmap.mem_of_lookup_eq_some ((h2 k e).mp hm)), h1⟩
  · intro t c
    rw [List.mem_cons]
    by_cases ht : t = k
    · subst ht
      rw [Finmap.lookup_insert]
      constructor
      · rintro (h | h)
        · rw [(Prod.mk.inj h).2]
        · exact absurd (Finmap.mem_of_lookup_eq_some ((h2 t c).mp h)) hk
      · intro h
        exact Or.inl (by rw [Option.some.inj h])
    · rw [Finmap.lookup_insert_of_ne _ ht, ← h2]
      constructor
      · rintro (h | h)
        · exact absurd (Prod.mk.inj h).1 ht
        · exact h
      · exact Or.inr

theorem IsRange_perm {E : typeMap} {l l' : List (String × String)} (h : IsRange E l)
    (hp : l.Perm l') : IsRange E l' :=
  ⟨hp.nodup_iff.mp h.1, fun t c => (hp.mem_iff.symm).trans (h.2 t c)⟩

theorem IsRange_eq_nil {l : List (String × String)} (h : IsRange ∅ l) : l = [] := by
  rw [List.eq_nil_iff_forall_not_mem]
  intro tc htc
  have := (h.2 tc.1 tc.2).mp htc
  simp at this

theorem Schema_index_of_not_mem {maps : Schema} {f : String} (h : f ∉ maps) :
    Schema.index maps f = ∅ := by
  unfold Schema.index
  rw [Finmap.lookup_eq_none.mpr h]
  rfl

theorem Schema_index_of_lookup {maps : Schema} {f : String} {E : typeMap}
    (h : maps.lookup f = some E) : Schema.index maps f = E := by
  unfold Schema.index
  rw [h]
  rfl

theorem sampleMaps_index (f : String) :
    Schema.index sampleMaps f
      = if f = "f[]" then (Finmap.singleton "string" "\"a\"").insert "number" "1" else ∅ := by
  by_cases h : f = "f[]"
  · subst h
    rw [if_pos rfl]
    exact Schema_index_of_lookup Finmap.lookup_singleton_eq
  · rw [if_neg h]
    apply Schema_index_of_not_mem
    unfold sampleMaps
    rw [Finmap.mem_singleton]
    exact h

theorem IsRange_sample :
    IsRange ((Finmap.singleton "string" "\"a\"").insert "number" "1")
      [("number", "1"), ("string", "\"a\"")] := by
  apply IsRange_insert
  · rw [← insert_empty_eq_singleton]
    exact IsRange_insert IsRange_empty _ Finmap.not_mem_empty
  · decide

theorem RangeOracle_sampleRange : RangeOracle sampleMaps sampleRange := by
  intro f
  rw [sampleMaps_index]
  unfold sampleRange
  by_cases h : f = "f[]"
  · rw [if_pos h, if_pos h]
    exact IsRange_sample
  · rw [if_neg h, if_neg h]
    exact IsRange_empty

theorem RangeOracle_sampleRangeRev : RangeOracle sampleMaps sampleRangeRev := by
  intro f
  rw [sampleMaps_index]
  unfold sampleRangeRev
  by_cases h : f = "f[]"
  · rw [if_pos h, if_pos h]
    exact IsRange_perm IsRange_sample (List.Perm.swap _ _ _)
  · rw [if_neg h, if_neg h]
    exact IsRange_empty

theorem IsRange_unique {E : typeMap} {l l' : List (String × String)} (h : IsRange E l)
    (h' : IsRange E l') (hcard : E.keys.card ≤ 1) : l = l' := by
  have hp : l.Perm l' :=
    (List.perm_ext_iff_of_nodup h.1 h'.1).mpr (fun a => (h.2 a.1 a.2).trans (h'.2 a.1 a.2).symm)
  match l, h, hp with
  | [], _, hp => exact (List.Perm.nil_eq hp)
  | [a], _, hp => exact (List.perm_singleton.mp hp.symm).symm
  | a :: b :: rest, h, _ =>
    exfalso
    have ha : a.1 ∈ E := Finmap.mem_of_lookup_eq_some ((h.2 a.1 a.2).mp (List.mem_cons_self _ _))
    have hb : b.1 ∈ E := Finmap.mem_of_lookup_eq_some
      ((h.2 b.1 b.2).mp (List.mem_cons_of_mem _ (List.mem_cons_self _ _)))
    have hne : a.1 ≠ b.1 := by
      intro hab
      have h1 := (h.2 a.1 a.2).mp (List.mem_cons_self _ _)
      have h2 := (h.2 b.1 b.2).mp (List.mem_cons_of_mem _ (List.mem_cons_self _ _))
      rw [hab, h2] at h1
      have hab' : a = b := Prod.ext hab (Option.some.inj h1).symm
      have hnd := h.1
      rw [List.nodup_cons] at hnd
      exact hnd.1 (hab' ▸ List.mem_cons_self _ _)
    have : 1 < E.keys.card :=
      Finset.one_lt_card.mpr ⟨a.1, Finmap.mem_keys.mpr ha, b.1, Finmap.mem_keys.mpr hb, hne⟩
    omega

/-! ## Column widths of `writeList` -/

theorem utf8Size_of_lt (c : Char) (h : c.toNat < 128) : c.utf8Size = 1 := by
  have h1 : c.val ≤ UInt32.ofNatCore 0x7F (by decide) := by
    show c.val.toNat ≤ 127
    have : c.toNat = c.val.toNat := rfl
    omega
  unfold Char.utf8Size
  simp only [h1, if_true]

theorem utf8ByteSize_go_of_ascii (l : List Char) (h : ∀ ch ∈ l, ch.toNat < 128) :
    String.utf8ByteSize.go l = l.length := by
  induction l with
  | nil => rfl
  | cons c cs ih =>
    rw [String.utf8ByteSize.go, ih (fun ch hch => h ch (List.mem_cons_of_mem _ hch)),
      utf8Size_of_lt c (h c (List.mem_cons_self _ _)), List.length_cons]

theorem utf8ByteSize_of_IsAscii (s : String) (h : IsAscii s) : s.utf8ByteSize = s.length := by
  cases s with
  | mk l => exact utf8ByteSize_go_of_ascii l h

theorem intercalate_go_length (s : String) (l : List String) :
    ∀ acc : String, (String.intercalate.go acc s l).length
      = acc.length + (l.map (fun a => s.length + a.length)).sum := by
  induction l with
  | nil => intro acc; simp [String.intercalate.go]
  | cons a rest ih =>
    intro acc
    rw [String.intercalate.go, ih]
    simp only [String.length_append, List.map_cons, List.sum_cons]
    omega

theorem intercalate_length (l : List String) :
    (";".intercalate l).length = (l.map (fun a => a.length + 1)).sum - 1 := by
  cases l with
  | nil => rfl
  | cons a rest =>
    rw [String.intercalate, intercalate_go_length]
    simp only [List.map_cons, List.sum_cons]
    have h1 : (";" : String).length = 1 := rfl
    have h2 : (rest.map (fun a => (";" : String).length + a.length)).sum
        = (rest.map (fun a => a.length + 1)).sum := by
      congr 1
      apply List.map_congr_left
      intro x _
      rw [h1]; omega
    rw [h2]
    omega

theorem padRight_of_le (w : Nat) (s : String) (hw : w ≤ 1000000) :
    padRight w s = s ++ String.mk (List.replicate (w - s.length) ' ') := by
  unfold padRight
  exact if_neg (by omega)

theorem padRight_of_tooLarge (w : Nat) (s : String) (hw : 1000000 < w) :
    padRight w s = "%!(BADWIDTH)" ++ s := by
  unfold padRight
  exact if_pos hw

theorem padRight_length (w : Nat) (s : String) (h : s.length ≤ w) (hw : w ≤ 1000000) :
    (padRight w s).length = w := by
  have hr : (String.mk (List.replicate (w - s.length) ' ')).length = w - s.length := by
    rw [String.length_mk, List.length_replicate]
  rw [padRight_of_le w s hw, String.length_append, hr]
  omega

theorem padRight_length_of_tooLarge (w : Nat) (s : String) (hw : 1000000 < w) :
    (padRight w s).length = 12 + s.length := by
  rw [padRight_of_tooLarge w s hw, String.length_append]
  rfl

theorem le_longestLength {l : List String} {s : String} (h : s ∈ l) :
    s.length ≤ longestLength l := by
  induction l with
  | nil => exact absurd h (List.not_mem_nil s)
  | cons a rest ih =>
    unfold longestLength
    rw [List.foldr_cons]
    rcases List.mem_cons.mp h with rfl | h
    · exact le_max_left _ _
    · exact le_trans (ih h) (le_max_right _ _)

theorem foldl_max_utf8ByteSize (l : List String) (hl : ∀ f ∈ l, IsAscii f) :
    ∀ a : Nat, l.foldl (fun fieldLen field => max fieldLen field.utf8ByteSize) a
      = max a (longestLength l) := by
  induction l with
  | nil => intro a; simp [longestLength]
  | cons f rest ih =>
    intro a
    rw [List.foldl_cons, ih (fun g hg => hl g (List.mem_cons_of_mem _ hg)),
      utf8ByteSize_of_IsAscii f (hl f (List.mem_cons_self _ _))]
    unfold longestLength
    rw [List.foldr_cons, max_assoc]

theorem listFieldLen_eq (ks : List String) (hks : ∀ f ∈ ks, IsAscii f) :
    listFieldLen ks = fieldWidth ks := by
  unfold listFieldLen fieldWidth
  rw [foldl_max_utf8ByteSize ks hks]
  have : headerField.utf8ByteSize = 5 := by decide
  rw [this, Nat.add_comm]

theorem IsRange_keys {E : typeMap} {l : List (String × String)} (h : IsRange E l) :
    (l.map Prod.fst).Nodup ∧ (l.map Prod.fst).toFinset = E.keys := by
  constructor
  · apply List.Nodup.map_on _ h.1
    intro x hx y hy hxy
    have h1 := (h.2 x.1 x.2).mp hx
    have h2 := (h.2 y.1 y.2).mp hy
    rw [hxy, h2] at h1
    exact Prod.ext hxy (Option.some.inj h1).symm
  · ext t
    rw [List.mem_toFinset, Finmap.mem_keys, List.mem_map, Finmap.mem_iff]
    constructor
    · rintro ⟨tc, htc, rfl⟩
      exact ⟨tc.2, (h.2 tc.1 tc.2).mp htc⟩
    · rintro ⟨c, hc⟩
      exact ⟨(t, c), (h.2 t c).mpr hc, rfl⟩

theorem mergeLen_eq {E : typeMap} {l : List (String × String)} (h : IsRange E l)
    (hE : ∀ t ∈ E, IsAscii t) :
    E.keys.sum (fun t => t.utf8ByteSize + 1) - 1
      = (";".intercalate (l.map Prod.fst)).length := by
  obtain ⟨hnd, hkeys⟩ := IsRange_keys h
  rw [intercalate_length, ← hkeys, List.sum_toFinset _ hnd]
  congr 2
  apply List.map_congr_left
  intro t ht
  have : t ∈ E := by
    rw [← Finmap.mem_keys, ← hkeys, List.mem_toFinset]
    exact ht
  rw [utf8ByteSize_of_IsAscii t (hE t this)]

theorem listTypeLen_eq (range : String → typeMap → List (String × String)) (maps : Schema)
    (merge : Bool) (h : RangeOracle maps range)
    (hkinds : ∀ f E, maps.lookup f = some E → ∀ t ∈ E, IsAscii t) :
    listTypeLen maps merge = typeWidth range maps merge := by
  unfold listTypeLen typeWidth
  have h4 : headerType.utf8ByteSize = 4 := by decide
  rw [h4, Nat.add_comm]
  congr 2
  apply Finset.sup_congr rfl
  intro f hf
  obtain ⟨E, hE⟩ := Finmap.mem_iff.mp (Finmap.mem_keys.mp hf)
  have hidx := Schema_index_of_lookup hE
  have hasc : ∀ t ∈ Schema.index maps f, IsAscii t := by
    rw [hidx]; exact hkinds f E hE
  cases merge with
  | true =>
    simp only [if_true]
    exact mergeLen_eq (h f) hasc
  | false =>
    simp only [Bool.false_eq_true, if_false]
    apply Finset.sup_congr rfl
    intro t ht
    exact utf8ByteSize_of_IsAscii t (hasc t (Finmap.mem_keys.mp ht))

theorem cell_bounds (range : String → typeMap → List (String × String)) (ks : List String)
    (maps : Schema) (merge requireHeaders : Bool) (h : RangeOracle maps range)
    (r : List String) (hr : r ∈ csvRecords range ks maps merge requireHeaders) :
    ∃ a b c, r = [a, b, c] ∧ a.length < fieldWidth ks
      ∧ b.length < typeWidth range maps merge := by
  have hW : ∀ n w : Nat, n ≤ w → n < 1 + max 4 w := by
    intro n w hn
    have := le_max_right 4 w
    omega
  rw [csvRecords_header, List.mem_append] at hr
  rcases hr with hr | hr
  · cases requireHeaders with
    | false => simp at hr
    | true =>
      simp only [if_true, List.mem_singleton] at hr
      refine ⟨"field", "type", "content", hr, ?_, ?_⟩
      · unfold fieldWidth
        have : ("field" : String).length = 5 := rfl
        have := le_max_left 5 (longestLength ks)
        omega
      · unfold typeWidth
        have : ("type" : String).length = 4 := rfl
        have := le_max_left 4 (maps.keys.sup (fun field =>
          if merge = true then
            (";".intercalate ((range field (Schema.index maps field)).map Prod.fst)).length
          else (Schema.index maps field).keys.sup String.length))
        omega
  · cases merge with
    | false =>
      obtain ⟨f, t, c, rfl, hf, he⟩ := (mem_csvRecords_plain range ks maps h r).mp hr
      refine ⟨f, t, c, rfl, ?_, ?_⟩
      · unfold fieldWidth
        have := le_longestLength hf
        have := le_max_right 5 (longestLength ks)
        omega
      · unfold typeWidth
        apply hW
        unfold exampleAt at he
        cases hl : maps.lookup f with
        | none => rw [hl] at he; simp at he
        | some E =>
          rw [hl] at he
          have ht : t ∈ E.keys := Finmap.mem_keys.mpr (Finmap.mem_of_lookup_eq_some he)
          have hfk : f ∈ maps.keys := Finmap.mem_keys.mpr (Finmap.mem_of_lookup_eq_some hl)
          refine le_trans ?_ (Finset.le_sup hfk)
          simp only [Bool.false_eq_true, if_false]
          rw [Schema_index_of_lookup hl]
          exact Finset.le_sup (f := String.length) ht
    | true =>
      rw [csvRecords_merged] at hr
      obtain ⟨f, hf, rfl⟩ := List.mem_map.mp hr
      refine ⟨f, _, _, rfl, ?_, ?_⟩
      · unfold fieldWidth
        have := le_longestLength hf
        have := le_max_right 5 (longestLength ks)
        omega
      · unfold typeWidth
        apply hW
        by_cases hfm : f ∈ maps
        · refine le_trans ?_ (Finset.le_sup (Finmap.mem_keys.mpr hfm))
          simp only [if_true]
          exact le_refl _
        · have h0 := h f
          rw [Schema_index_of_not_mem hfm] at h0
          rw [Schema_index_of_not_mem hfm, IsRange_eq_nil h0]
          exact Nat.zero_le _

theorem sampleFields_ascii : ∀ f ∈ ["f[]"], IsAscii f := by
  intro f hf
  rw [List.mem_singleton.mp hf]
  intro ch hch
  revert ch
  decide

theorem sampleMaps_ascii : ∀ f E, sampleMaps.lookup f = some E → ∀ t ∈ E, IsAscii t := by
  intro f E hE t ht
  have hf : f = "f[]" := (Finmap.mem_singleton f _ _).mp (Finmap.mem_of_lookup_eq_some hE)
  subst hf
  have hE' : E = (Finmap.singleton "string" "\"a\"").insert "number" "1" :=
    Option.some.inj (hE.symm.trans Finmap.lookup_singleton_eq)
  subst hE'
  rw [Finmap.mem_insert, Finmap.mem_singleton] at ht
  rcases ht with rfl | rfl <;> intro ch hch <;> revert ch <;> decide

/-- For a schema in which every entry holds at most one kind, any two runs of `writeList`,
`writeCsv` and `writeJson` on the same inputs give the same output, whatever orders the
map iterations take. -/
theorem render_deterministic_of_single_kind
    (csvEncode : List (List String) → String) (Encode : List JsonRecord → Bool → String)
    (range1 range2 : String → typeMap → List (String × String))
    (sortedKeys : List String) (maps : Schema) (merge requireHeaders prettyPrint : Bool)
    (hsingle : ∀ f E, maps.lookup f = some E → E.keys.card ≤ 1)
    (h1 : RangeOracle maps range1) (h2 : RangeOracle maps range2) :
    writeList range1 sortedKeys maps merge requireHeaders
        = writeList range2 sortedKeys maps merge requireHeaders
    ∧ writeCsv csvEncode range1 sortedKeys maps merge requireHeaders
        = writeCsv csvEncode range2 sortedKeys maps merge requireHeaders
    ∧ writeJson Encode range1 sortedKeys maps prettyPrint
        = writeJson Encode range2 sortedKeys maps prettyPrint := by
  have hr : ∀ f, range1 f (Schema.index maps f) = range2 f (Schema.index maps f) := by
    intro f
    apply IsRange_unique (h1 f) (h2 f)
    cases hl : maps.lookup f with
    | none =>
      rw [Schema_index_of_not_mem (Finmap.lookup_eq_none.mp hl)]
      exact Nat.zero_le 1
    | some E =>
      rw [Schema_index_of_lookup hl]
      exact hsingle f E hl
  refine ⟨?_, ?_, ?_⟩
  · simp only [writeList, hr]
  · simp only [writeCsv, csvRecords, hr]
  · simp only [writeJson, jsonContent, hr]

/-! ## A field path beyond the width limit of `fmt` -/

theorem IsAscii_append {s t : String} (hs : IsAscii s) (ht : IsAscii t) : IsAscii (s ++ t) := by
  intro ch hch
  rw [String.data_append, List.mem_append] at hch
  rcases hch with h | h
  · exact hs ch h
  · exact ht ch h

theorem IsAscii_replicate_a (n : Nat) : IsAscii (String.mk (List.replicate n 'a')) := by
  intro ch hch
  have : ch = 'a' := List.eq_of_mem_replicate hch
  rw [this]
  decide

theorem longKey_length : longKey.length = 999999 := by
  unfold longKey
  rw [String.length_mk, List.length_replicate]

theorem longField_length : longField.length = 1000000 := by
  unfold longField
  rw [String.length_append, longKey_length]
  rfl

theorem longField_ascii : ∀ f ∈ [longField], IsAscii f := by
  intro f hf
  rw [List.mem_singleton.mp hf]
  unfold longField longKey
  exact IsAscii_append (by intro ch hch; revert ch; decide) (IsAscii_replicate_a _)

theorem fieldWidth_singleton (s : String) (hl : 5 ≤ s.length) :
    fieldWidth [s] = 1 + s.length := by
  unfold fieldWidth longestLength
  rw [List.foldr_cons, List.foldr_nil, Nat.max_eq_left (Nat.zero_le _), Nat.max_eq_right hl]

theorem index_singleton (s f : String) (E : typeMap) :
    Schema.index (Finmap.singleton s E) f = if f = s then E else ∅ := by
  by_cases h : f = s
  · subst h
    rw [if_pos rfl]
    exact Schema_index_of_lookup Finmap.lookup_singleton_eq
  · rw [if_neg h]
    apply Schema_index_of_not_mem
    rw [Finmap.mem_singleton]
    exact h

theorem RangeOracle_singleton (s k e : String) :
    RangeOracle (Finmap.singleton s (Finmap.singleton k e))
      (fun field _ => if field = s then [(k, e)] else []) := by
  intro f
  rw [index_singleton]
  by_cases h : f = s
  · simp only [if_pos h]
    rw [← insert_empty_eq_singleton]
    exact IsRange_insert IsRange_empty _ Finmap.not_mem_empty
  · simp only [if_neg h]
    exact IsRange_empty

theorem singleton_string_ascii (s e : String) :
    ∀ f E, (Finmap.singleton s (Finmap.singleton "string" e) : Schema).lookup f = some E →
      ∀ t ∈ E, IsAscii t := by
  intro f E hE t ht
  have hf : f = s := (Finmap.mem_singleton f _ _).mp (Finmap.mem_of_lookup_eq_some hE)
  subst hf
  have hE' : E = Finmap.singleton "string" e :=
    Option.some.inj (hE.symm.trans Finmap.lookup_singleton_eq)
  subst hE'
  rw [Finmap.mem_singleton] at ht
  subst ht
  intro ch hch
  revert ch
  decide

theorem Parse_single_member (q : String → String) (k : String) :
    Parse q "" (.TypeObject [(k, .TypeString "a")]) ∅ false
      = Finmap.singleton ("" ++ "." ++ k) (Finmap.singleton "string" "\"a\"") := by
  have hs : hasSpecialChars "a" = false := by decide
  rw [Parse, parse, parseObject, parseObject,
    parse_scalar q ("" ++ "." ++ k) (.TypeString "a") ∅ false rfl, leafWrite_empty]
  simp [kindOf, Value.String, escapeString, hs]

theorem listTypeLen_singleton_string (s e : String) :
    listTypeLen (Finmap.singleton s (Finmap.singleton "string" e)) false = 7 := by
  unfold listTypeLen
  rw [Finmap.keys_singleton, Finset.sup_singleton]
  simp only [Bool.false_eq_true, if_false]
  rw [Schema_index_of_lookup Finmap.lookup_singleton_eq, Finmap.keys_singleton,
    Finset.sup_singleton]
  decide

theorem writeList_single_tooLong (range : String → typeMap → List (String × String))
    (s : String) (hs : IsAscii s) (hl : 1000000 ≤ s.length)
    (hr : range s (Finmap.singleton "string" "\"a\"") = [("string", "\"a\"")]) :
    writeList range [s] (Finmap.singleton s (Finmap.singleton "string" "\"a\"")) false true
      = ["%!(BADWIDTH)fieldtype   content\n", "%!(BADWIDTH)" ++ s ++ "string \"a\"\n"] := by
  have hW : 1000000 < listFieldLen [s] := by
    rw [listFieldLen_eq [s] (fun f hf => by rw [List.mem_singleton.mp hf]; exact hs),
      fieldWidth_singleton s (by omega)]
    omega
  have hidx : Schema.index (Finmap.singleton s (Finmap.singleton "string" "\"a\"")) s
      = Finmap.singleton "string" "\"a\"" := Schema_index_of_lookup Finmap.lookup_singleton_eq
  have hpad : padRight 7 "type" = "type   " := by decide
  have hpad2 : padRight 7 "string" = "string " := by decide
  unfold writeList
  simp only [if_true, Bool.not_false, List.flatMap_cons, List.flatMap_nil, hidx, hr,
    List.map_cons, List.map_nil, Bool.true_eq_false, if_false, List.append_nil,
    listTypeLen_singleton_string, Sprintf, padRight_of_tooLarge _ _ hW, hpad, hpad2,
    List.singleton_append, List.cons_append, List.nil_append, String.append_assoc]
  rfl

theorem field_cell_not_padded (range : String → typeMap → List (String × String))
    (s : String) (maps : Schema) (h : RangeOracle maps range) (hl : 1000000 ≤ s.length)
    (a b c : String) (hr : [a, b, c] ∈ csvRecords range [s] maps false true) :
    (padRight (fieldWidth [s]) a).length ≠ fieldWidth [s] := by
  have hW : fieldWidth [s] = 1 + s.length := fieldWidth_singleton s (by omega)
  rw [padRight_length_of_tooLarge _ _ (by omega), hW]
  rw [csvRecords_header, List.mem_append] at hr
  rcases hr with hr | hr
  · simp only [if_true, List.mem_singleton, List.cons.injEq, and_true] at hr
    rw [hr.1]
    have : ("field" : String).length = 5 := by decide
    omega
  · obtain ⟨f, t, c', heq, hf, -⟩ := (mem_csvRecords_plain range [s] maps h _).mp hr
    simp only [List.cons.injEq, and_true] at heq
    rw [heq.1, List.mem_singleton.mp hf]
    omega

theorem RangeOracle_longRange : RangeOracle longMaps longRange :=
  RangeOracle_singleton longField "string" "\"a\""

theorem longMaps_ascii : ∀ f E, longMaps.lookup f = some E → ∀ t ∈ E, IsAscii t :=
  singleton_string_ascii longField "\"a\""

/-! ## The claims -/

/-- Claim C1 (null suppression), evaluated on the code at `[null, "a"]` under the root
path `f`: the entry at `f[]` keeps the kind `unknown` next to the kind `string`.  `Merge`
looks for the key `"null"`, while `parse` records JSON null under `typeUnknown`, which is
`"unknown"`; so the suppression never applies to an entry written by `parse`. -/
theorem C1_null_not_suppressed (AppendQuote : String → String) (c : Bool) :
    Parse AppendQuote "f" (.TypeArray [.TypeNull, .TypeString "a"]) ∅ c
      = Finmap.singleton "f[]"
          ((Finmap.singleton "string" "\"a\"").insert "unknown" "null") := by
  have hs : hasSpecialChars "a" = false := by decide
  simp only [Parse, parse, parseArray, Value.String, escapeString, hs, Bool.false_eq_true,
    if_false]
  decide

/-- Claim C2, as amended (first write wins per kind): when two scalars `v1` and `v2` of
the same kind are traversed one after the other at the field path `p`, the second
traversal leaves the schema exactly as the first left it; and when `out` had no entry at
`p`, the example under that kind is the text of `v1`, the earlier observation. -/
theorem C2_first_write_wins (AppendQuote : String → String) (p : String) (out : Schema)
    (v1 v2 : Value) (c : Bool) (h1 : v1.isScalar = true) (h2 : v2.isScalar = true)
    (hk : kindOf c v1 = kindOf c v2) :
    Parse AppendQuote p v2 (Parse AppendQuote p v1 out c) c = Parse AppendQuote p v1 out c
    ∧ (p ∉ out →
        exampleAt (Parse AppendQuote p v2 (Parse AppendQuote p v1 out c) c) p (kindOf c v1)
          = some (Value.String AppendQuote v1)) := by
  have hsame : Parse AppendQuote p v2 (Parse AppendQuote p v1 out c) c
      = Parse AppendQuote p v1 out c := by
    rw [Parse, Parse, parse_scalar AppendQuote p v1 out c h1,
      parse_scalar AppendQuote p v2 _ c h2, ← hk]
    exact leafWrite_twice p _ _ _ out (kindOf_ne_null c v1 h1)
  refine ⟨hsame, fun hp => ?_⟩
  rw [hsame, Parse, parse_scalar AppendQuote p v1 out c h1, leafWrite_of_not_mem _ _ _ _ hp]
  simp [exampleAt, Finmap.lookup_insert, Finmap.lookup_singleton_eq]

/-- The numbers `1` then `2` at the path `x[]` of an empty schema: the second traversal
changes nothing and the example under `number` is `1`. -/
theorem C2_first_write_wins_witness :
    Parse id "x[]" (.TypeNumber "2") (Parse id "x[]" (.TypeNumber "1") ∅ false) false
        = Parse id "x[]" (.TypeNumber "1") ∅ false
    ∧ exampleAt
        (Parse id "x[]" (.TypeNumber "2") (Parse id "x[]" (.TypeNumber "1") ∅ false) false)
        "x[]" "number" = some "1" :=
  ⟨(C2_first_write_wins id "x[]" ∅ (.TypeNumber "1") (.TypeNumber "2") false rfl rfl rfl).1,
   (C2_first_write_wins id "x[]" ∅ (.TypeNumber "1") (.TypeNumber "2") false rfl rfl rfl).2
     Finmap.not_mem_empty⟩

/-- Claim C2 as stated fails on its own witness: the array `[1, 2]` under the root path
`x` with `categorizeNumeric = false` does not give the example `2` under `number` at
`x[]`, whatever `strconv.AppendQuote` does. -/
theorem C2_last_write_counterexample :
    ¬ ∃ AppendQuote : String → String,
        exampleAt
          (Parse AppendQuote "x" (.TypeArray [.TypeNumber "1", .TypeNumber "2"]) ∅ false)
          "x[]" "number" = some "2" := by
  rintro ⟨q, h⟩
  simp only [Parse, parse, parseArray, Value.String, Bool.not_false, if_true] at h
  revert h
  decide

/-- Claim C3 (numeric promotion): with `categorizeNumeric = true` and an empty schema, an
array of numbers (texts `ts`, none empty, as the text of a JSON number never is) of which
at least one is not of integer form yields at `f[]` an entry that holds `number_float`
and does not hold `number_int`, in whatever order the elements stand. -/
theorem C3_numeric_promotion (AppendQuote : String → String) (f : String) (ts : List String)
    (hne : ∀ t ∈ ts, t ≠ "") (hfloat : ∃ t ∈ ts, ¬ IntegerForm t) :
    ∃ E : typeMap,
      (Parse AppendQuote f (.TypeArray (ts.map Value.TypeNumber)) ∅ true).lookup (f ++ "[]")
        = some E
      ∧ "number_float" ∈ E ∧ "number_int" ∉ E := by
  rw [Parse, parse]
  exact numbers_promoted AppendQuote f ts ∅ hne
    (fun E hE => absurd hE (by simp)) (Or.inr hfloat)

/-- The array `[1, 2.5]` under the root path `f`. -/
theorem C3_numeric_promotion_witness :
    (∀ t ∈ ["1", "2.5"], t ≠ "") ∧
    ∃ E : typeMap,
      (Parse id "f" (.TypeArray (["1", "2.5"].map Value.TypeNumber)) ∅ true).lookup
          ("f" ++ "[]") = some E
      ∧ "number_float" ∈ E ∧ "number_int" ∉ E :=
  ⟨by decide,
   C3_numeric_promotion id "f" ["1", "2.5"] (by decide)
    ⟨"2.5", by decide, not_IntegerForm_of_mem "2.5" ⟨'.', by decide, Or.inl rfl⟩⟩⟩

/-- Claim C4, as amended (path flattening): for a non-empty array of numbers,
`{"a": {"b": arr}}` traversed from the empty root path gives exactly one field path, and
that path is `.a.b[]`, with the separator that `parse` puts before every key. -/
theorem C4_path_flattening (AppendQuote : String → String) (ts : List String) (c : Bool)
    (hne : ts ≠ []) :
    (Parse AppendQuote ""
      (.TypeObject [("a", .TypeObject [("b", .TypeArray (ts.map Value.TypeNumber))])])
      ∅ c).keys = {".a.b[]"} := by
  simp only [Parse, parse, parseObject]
  rw [keys_parseArray_numbers, if_neg hne]
  rfl

/-- The document `{"a": {"b": [1, 2]}}` from the empty root path. -/
theorem C4_path_flattening_witness :
    (Parse id ""
      (.TypeObject [("a", .TypeObject [("b", .TypeArray (["1", "2"].map Value.TypeNumber))])])
      ∅ false).keys = {".a.b[]"} :=
  C4_path_flattening id ["1", "2"] false (by decide)

/-- Claim C4 as stated fails on its own witness: the field paths of
`{"a": {"b": [1, 2]}}` from the empty root path are not the single path `a.b[]`. -/
theorem C4_no_leading_dot_counterexample :
    ¬ ∃ AppendQuote : String → String,
        (Parse AppendQuote ""
          (.TypeObject [("a", .TypeObject [("b", .TypeArray [.TypeNumber "1", .TypeNumber "2"])])])
          ∅ false).keys = {"a.b[]"} := by
  rintro ⟨q, h⟩
  simp only [Parse, parse, parseObject, parseArray, Value.String, Bool.not_false, if_true] at h
  revert h
  decide

/-- Claim C5 (number classification): a JSON number of text `t` traversed at `p` into an
empty schema is recorded under `number` when `categorizeNumeric` is false; when it is
true, under `number_int` if `t` is of integer form and under `number_float` if it is
not, in particular whenever `t` holds a `.`, an `e` or an `E`; the example is `t`. -/
theorem C5_number_classification (AppendQuote : String → String) (t p : String) :
    Parse AppendQuote p (.TypeNumber t) ∅ false
        = Finmap.singleton p (Finmap.singleton "number" t)
    ∧ (IntegerForm t → Parse AppendQuote p (.TypeNumber t) ∅ true
        = Finmap.singleton p (Finmap.singleton "number_int" t))
    ∧ (¬ IntegerForm t → Parse AppendQuote p (.TypeNumber t) ∅ true
        = Finmap.singleton p (Finmap.singleton "number_float" t))
    ∧ ((∃ ch ∈ t.data, ch = '.' ∨ ch = 'e' ∨ ch = 'E') →
        Parse AppendQuote p (.TypeNumber t) ∅ true
          = Finmap.singleton p (Finmap.singleton "number_float" t)) := by
  have hfloat : ¬ IntegerForm t → Parse AppendQuote p (.TypeNumber t) ∅ true
        = Finmap.singleton p (Finmap.singleton "number_float" t) := by
    intro h
    have h' : decimalRegex.MatchString t = false := by
      rw [← Bool.not_eq_true]; exact fun hm => h ((MatchString_iff_IntegerForm t).mp hm)
    rw [Parse, parse_scalar AppendQuote p (.TypeNumber t) ∅ true rfl, leafWrite_empty]
    simp [kindOf, h', Value.String]
  refine ⟨?_, ?_, hfloat, fun h => hfloat (not_IntegerForm_of_mem t h)⟩
  · rw [Parse, parse_scalar AppendQuote p (.TypeNumber t) ∅ false rfl, leafWrite_empty]
    simp [kindOf, Value.String]
  · intro h
    have h' : decimalRegex.MatchString t = true := (MatchString_iff_IntegerForm t).mpr h
    rw [Parse, parse_scalar AppendQuote p (.TypeNumber t) ∅ true rfl, leafWrite_empty]
    simp [kindOf, h', Value.String]

/-- The numbers `-12`, `1.0` and `1e5` at the path `p`. -/
theorem C5_number_classification_witness :
    Parse id "p" (.TypeNumber "-12") ∅ true
        = Finmap.singleton "p" (Finmap.singleton "number_int" "-12")
    ∧ Parse id "p" (.TypeNumber "1.0") ∅ true
        = Finmap.singleton "p" (Finmap.singleton "number_float" "1.0")
    ∧ Parse id "p" (.TypeNumber "1e5") ∅ true
        = Finmap.singleton "p" (Finmap.singleton "number_float" "1e5") :=
  ⟨(C5_number_classification id "-12" "p").2.1
      ⟨['-'], ['1', '2'], rfl, Or.inr (Or.inr rfl), by decide, by decide⟩,
   (C5_number_classification id "1.0" "p").2.2.2 ⟨'.', by decide, by decide⟩,
   (C5_number_classification id "1e5" "p").2.2.2 ⟨'e', by decide, by decide⟩⟩

/-- Claim C6, as amended (string example): the example recorded under `string` is the
JSON text of the string as `Value.String()` gives it.  For a content `s` without double
quote, backslash and character below `0x20` it is `s` between two double quotes; for any
other content it is what `strconv.AppendQuote` returns for `s`. -/
theorem C6_string_example (AppendQuote : String → String) (p s : String) (c : Bool) :
    ((∀ ch ∈ s.data, ch ≠ '"' ∧ ch ≠ '\\' ∧ 0x20 ≤ ch.toNat) →
      Parse AppendQuote p (.TypeString s) ∅ c
        = Finmap.singleton p (Finmap.singleton "string" ("\"" ++ s ++ "\"")))
    ∧ ((∃ ch ∈ s.data, ch = '"' ∨ ch = '\\' ∨ ch.toNat < 0x20) →
      Parse AppendQuote p (.TypeString s) ∅ c
        = Finmap.singleton p (Finmap.singleton "string" (AppendQuote s))) := by
  rw [Parse, parse_scalar AppendQuote p (.TypeString s) ∅ c rfl, leafWrite_empty]
  constructor
  · intro h
    have hs := (hasSpecialChars_eq_false_iff s).mpr h
    simp [kindOf, Value.String, escapeString, hs]
  · rintro ⟨ch, hch, hc⟩
    have hs : hasSpecialChars s = true := by
      rw [← Bool.not_eq_false]
      intro hf
      obtain ⟨h1, h2, h3⟩ := (hasSpecialChars_eq_false_iff s).mp hf ch hch
      rcases hc with hc | hc | hc
      · exact h1 hc
      · exact h2 hc
      · omega
    simp [kindOf, Value.String, escapeString, hs]

/-- The string `a` and the empty string at the path `f`. -/
theorem C6_string_example_witness :
    Parse id "f" (.TypeString "a") ∅ false
        = Finmap.singleton "f" (Finmap.singleton "string" "\"a\"")
    ∧ Parse id "f" (.TypeString "") ∅ false
        = Finmap.singleton "f" (Finmap.singleton "string" "\"\"") :=
  ⟨(C6_string_example id "f" "a" false).1 (by decide),
   (C6_string_example id "f" "" false).1 (by decide)⟩

/-- Claim C6 as stated fails: for the JSON string of content `a` at the path `f`, the
example under `string` is not `a`, whatever `strconv.AppendQuote` does. -/
theorem C6_unquoted_counterexample :
    ¬ ∃ AppendQuote : String → String,
        exampleAt (Parse AppendQuote "f" (.TypeString "a") ∅ false) "f" "string"
          = some "a" := by
  rintro ⟨q, h⟩
  have hs : hasSpecialChars "a" = false := by decide
  simp only [Parse, parse, Value.String, escapeString, hs, Bool.false_eq_true, if_false] at h
  revert h
  decide

/-- Claim C7 (root scalar): for a scalar `v`, any root path `p` and either value of
`categorizeNumeric`, the schema produced from the empty schema has exactly the one field
path `p`, and its entry has exactly one kind. -/
theorem C7_root_scalar (AppendQuote : String → String) (v : Value) (p : String) (c : Bool)
    (hv : v.isScalar = true) :
    (Parse AppendQuote p v ∅ c).keys = {p}
    ∧ ∃ E : typeMap, (Parse AppendQuote p v ∅ c).lookup p = some E ∧ E.keys.card = 1 := by
  rw [Parse, parse_scalar _ _ _ _ _ hv, leafWrite_empty]
  refine ⟨Finmap.keys_singleton _ _, _, Finmap.lookup_singleton_eq, ?_⟩
  rw [Finmap.keys_singleton]
  rfl

/-- The number `1` at the empty root path. -/
theorem C7_root_scalar_witness :
    (Parse id "" (.TypeNumber "1") ∅ true).keys = {""}
    ∧ ∃ E : typeMap, (Parse id "" (.TypeNumber "1") ∅ true).lookup "" = some E
        ∧ E.keys.card = 1 :=
  C7_root_scalar id (.TypeNumber "1") "" true rfl

/-- Claim C8 (the root path is put in front of every field path): the field paths of
`Parse p v` on the empty schema are those of `Parse "" v` with `p` in front, and the entry
at `p ++ k` in the first is the entry at `k` in the second. -/
theorem C8_root_path_prepended (AppendQuote : String → String) (v : Value) (p : String)
    (c : Bool) :
    (Parse AppendQuote p v ∅ c).keys
        = (Parse AppendQuote "" v ∅ c).keys.image (fun k => p ++ k)
    ∧ ∀ k, (Parse AppendQuote p v ∅ c).lookup (p ++ k)
        = (Parse AppendQuote "" v ∅ c).lookup k := by
  have h := Prefixed_parse AppendQuote p c v "" ∅ ∅ (Prefixed_empty p)
  rw [String.append_empty] at h
  obtain ⟨h1, h2⟩ := h
  refine ⟨?_, h1⟩
  ext j
  simp only [Parse, Finmap.mem_keys, Finset.mem_image]
  constructor
  · intro hj
    obtain ⟨k, hk, rfl⟩ := h2 j hj
    exact ⟨k, hk, rfl⟩
  · rintro ⟨k, hk, rfl⟩
    rw [Finmap.mem_iff] at hk ⊢
    obtain ⟨E, hE⟩ := hk
    exact ⟨E, (h1 k).trans hE⟩

/-- Claim C9 (null and boolean leaves): into an empty schema, JSON null is recorded at `p`
as `unknown` with example `null`, `true` as `bool` with example `true`, and `false` as
`bool` with example `false`. -/
theorem C9_null_bool_leaves (AppendQuote : String → String) (p : String) (c : Bool) :
    Parse AppendQuote p .TypeNull ∅ c = Finmap.singleton p (Finmap.singleton "unknown" "null")
    ∧ Parse AppendQuote p .TypeTrue ∅ c = Finmap.singleton p (Finmap.singleton "bool" "true")
    ∧ Parse AppendQuote p .TypeFalse ∅ c
        = Finmap.singleton p (Finmap.singleton "bool" "false") := by
  refine ⟨?_, ?_, ?_⟩
  · rw [Parse, parse_scalar AppendQuote p .TypeNull ∅ c rfl, leafWrite_empty]
    rfl
  · rw [Parse, parse_scalar AppendQuote p .TypeTrue ∅ c rfl, leafWrite_empty]
    rfl
  · rw [Parse, parse_scalar AppendQuote p .TypeFalse ∅ c rfl, leafWrite_empty]
    rfl

/-- Claim C10, as amended (the kinds do not depend on the order): for a sequence of
observations with non-empty examples and any permutation of it, folding `Merge` over
either, from the absent entry, yields entries with the same set of kinds. -/
theorem C10_kinds_order_independent (l1 l2 : List (String × String)) (hperm : l1.Perm l2)
    (hne : ∀ o ∈ l1, o.2 ≠ "") :
    (foldMerge l1).map Finmap.keys = (foldMerge l2).map Finmap.keys := by
  have hne2 : ∀ o ∈ l2, o.2 ≠ "" := fun o ho => hne o (hperm.mem_iff.mpr ho)
  have hks : ∀ x, KeptKind (l1.map Prod.fst) x ↔ KeptKind (l2.map Prod.fst) x := by
    intro x
    have hm : ∀ y, y ∈ l1.map Prod.fst ↔ y ∈ l2.map Prod.fst :=
      fun y => (hperm.map Prod.fst).mem_iff
    unfold KeptKind
    simp only [hm]
  rcases foldMerge_spec l1 hne with ⟨h1, _⟩ | ⟨E1, hE1, -, hm1⟩
  · subst h1
    rw [List.Perm.nil_eq hperm]
  · rcases foldMerge_spec l2 hne2 with ⟨h2, -⟩ | ⟨E2, hE2, -, hm2⟩
    · subst h2
      have := List.Perm.eq_nil hperm
      subst this
      rfl
    · rw [hE1, hE2, Option.map_some', Option.map_some']
      congr 1
      ext x
      rw [Finmap.mem_keys, Finmap.mem_keys, hm1, hm2]
      exact hks x

/-- An integer and a float observed in the two possible orders. -/
theorem C10_kinds_order_independent_witness :
    [("number_int", "1"), ("number_float", "2.5")].Perm
        [("number_float", "2.5"), ("number_int", "1")]
    ∧ (foldMerge [("number_int", "1"), ("number_float", "2.5")]).map Finmap.keys
      = (foldMerge [("number_float", "2.5"), ("number_int", "1")]).map Finmap.keys :=
  ⟨by decide, C10_kinds_order_independent _ _ (by decide) (by decide)⟩

/-- Claim C10 as stated fails: the observations `number: 1` and `number: 2` merged in the
two possible orders give two different entries, each keeping the example seen first. -/
theorem C10_examples_order_counterexample :
    [("number", "1"), ("number", "2")].Perm [("number", "2"), ("number", "1")]
    ∧ foldMerge [("number", "1"), ("number", "2")] = some (Finmap.singleton "number" "1")
    ∧ foldMerge [("number", "2"), ("number", "1")] = some (Finmap.singleton "number" "2")
    ∧ foldMerge [("number", "1"), ("number", "2")]
        ≠ foldMerge [("number", "2"), ("number", "1")] := by
  decide

/-- Claim C11 (closed kind set): every kind of every entry of `Parse p v` on the empty
schema is one of `string`, `bool`, `number`, `unknown` when `categorizeNumeric` is false
and one of `string`, `bool`, `number_int`, `number_float`, `unknown` when it is true; and
every entry has at least one kind. -/
theorem C11_closed_kind_set (AppendQuote : String → String) (v : Value) (p : String) (c : Bool)
    (P : String) (E : typeMap) (hE : (Parse AppendQuote p v ∅ c).lookup P = some E) :
    E.keys.Nonempty
    ∧ ∀ k ∈ E, k ∈ (if c = true then ["string", "bool", "number_int", "number_float", "unknown"]
        else ["string", "bool", "number", "unknown"]) := by
  rw [Parse, parse_eq_foldl] at hE
  exact kinds_foldl_writeObs c _ (observations_allowedKinds AppendQuote c p v) ∅
    (fun P E h => absurd h (by simp)) P E hE

/-- The array `[1, 2.5, "a", null]` under the root path `f` with numeric categorization. -/
theorem C11_closed_kind_set_witness :
    ∃ E : typeMap,
      (Parse id "f" (.TypeArray [.TypeNumber "1", .TypeNumber "2.5", .TypeString "a"]) ∅
          true).lookup "f[]" = some E
      ∧ E.keys.Nonempty
      ∧ ∀ k ∈ E, k ∈ (if true = true then
            ["string", "bool", "number_int", "number_float", "unknown"]
          else ["string", "bool", "number", "unknown"]) :=
  ⟨(Finmap.singleton "string" "\"a\"" : typeMap).insert "number_float" "2.5", by decide,
    C11_closed_kind_set id (.TypeArray [.TypeNumber "1", .TypeNumber "2.5", .TypeString "a"])
      "f" true "f[]" _ (by decide)⟩

/-- Claim C12 (sort order): whatever the order in which the keys of the schema are
collected, the key list that `main` hands to the renderers holds every field path of the
schema exactly once, is strictly ascending, and is the same list for every collection
order. -/
theorem C12_sorted_keys (m : Schema) (rangeKeys : List String) (h : IsKeyRange m rangeKeys) :
    (∀ k, k ∈ mainSortedKeys rangeKeys ↔ k ∈ m)
    ∧ (mainSortedKeys rangeKeys).Nodup
    ∧ (mainSortedKeys rangeKeys).Sorted (· < ·)
    ∧ ∀ rangeKeys', IsKeyRange m rangeKeys' →
        mainSortedKeys rangeKeys' = mainSortedKeys rangeKeys := by
  have hperm : (mainSortedKeys rangeKeys).Perm rangeKeys := List.perm_insertionSort _ _
  have hsorted : ∀ l : List String, (mainSortedKeys l).Sorted (· ≤ ·) :=
    fun l => List.sorted_insertionSort _ l
  have hnodup : (mainSortedKeys rangeKeys).Nodup := hperm.nodup_iff.mpr h.1
  refine ⟨fun k => (hperm.mem_iff).trans (h.2 k), hnodup, (hsorted _).lt_of_le hnodup, ?_⟩
  intro rangeKeys' h'
  have hp : rangeKeys'.Perm rangeKeys :=
    (List.perm_ext_iff_of_nodup h'.1 h.1).mpr (fun k => (h'.2 k).trans (h.2 k).symm)
  exact List.eq_of_perm_of_sorted
    (((List.perm_insertionSort _ rangeKeys').trans hp).trans hperm.symm)
    (hsorted _) (hsorted _)

/-- The schema of `{"b": 1, "a": 2}` with its keys collected as `.b`, `.a`. -/
theorem C12_sorted_keys_witness :
    (∀ k, k ∈ mainSortedKeys [".b", ".a"]
        ↔ k ∈ Parse id "" (.TypeObject [("b", .TypeNumber "1"), ("a", .TypeNumber "2")]) ∅ false)
    ∧ (mainSortedKeys [".b", ".a"]).Nodup
    ∧ (mainSortedKeys [".b", ".a"]).Sorted (· < ·)
    ∧ ∀ rangeKeys',
        IsKeyRange (Parse id "" (.TypeObject [("b", .TypeNumber "1"), ("a", .TypeNumber "2")])
          ∅ false) rangeKeys' →
        mainSortedKeys rangeKeys' = mainSortedKeys [".b", ".a"] :=
  C12_sorted_keys _ _ ⟨by decide, fun k => by
    rw [← Finmap.mem_keys]
    have hk : (Parse id "" (.TypeObject [("b", .TypeNumber "1"), ("a", .TypeNumber "2")])
        ∅ false).keys = {".b", ".a"} := by decide
    rw [hk]
    simp⟩

/-- Claim C13 (structure of the JSON renderer): the slice that `writeJson` encodes has one
record per key of the list, in the order of the list, the record of a key carrying that
key as `field`; its `types` hold exactly one pair `(type, content)` for each kind and
example of the entry at that field path, and nothing else. -/
theorem C13_json_records (Encode : List JsonRecord → Bool → String)
    (range : String → typeMap → List (String × String)) (sortedKeys : List String)
    (maps : Schema) (prettyPrint : Bool) (h : RangeOracle maps range) :
    writeJson Encode range sortedKeys maps prettyPrint
        = Encode (jsonContent range sortedKeys maps) prettyPrint
    ∧ (jsonContent range sortedKeys maps).map JsonRecord.field = sortedKeys
    ∧ ∀ r ∈ jsonContent range sortedKeys maps,
        r.types.Nodup ∧ ∀ t c, (t, c) ∈ r.types ↔ exampleAt maps r.field t = some c := by
  refine ⟨rfl, ?_, ?_⟩
  · simp [jsonContent, Function.comp_def]
  · intro r hr
    obtain ⟨f, -, rfl⟩ := List.mem_map.mp hr
    refine ⟨(h f).1, fun t c => ?_⟩
    rw [← lookup_Schema_index]
    exact (h f).2 t c

/-- The schema of `[1, "a"]` with the kinds iterated as `number`, `string`. -/
theorem C13_json_records_witness :
    writeJson (fun _ _ => "") sampleRange ["f[]"] sampleMaps false
        = (fun _ _ => "") (jsonContent sampleRange ["f[]"] sampleMaps) false
    ∧ (jsonContent sampleRange ["f[]"] sampleMaps).map JsonRecord.field = ["f[]"]
    ∧ ∀ r ∈ jsonContent sampleRange ["f[]"] sampleMaps,
        r.types.Nodup ∧ ∀ t c, (t, c) ∈ r.types ↔ exampleAt sampleMaps r.field t = some c :=
  C13_json_records (fun _ _ => "") sampleRange ["f[]"] sampleMaps false RangeOracle_sampleRange

/-- Claim C14 (row semantics of the CSV and list renderers).  `writeCsv` hands the records
`csvRecords` to the CSV writer and its output is the encoding of exactly these records;
`writeList` writes the same records, one formatted line each.  The header record
`field`, `type`, `content` comes first exactly when `requireHeaders` is set.  Without
`merge` the records are the triples `(field, kind, example)` of the schema at the listed
field paths, each once when the list has no repetition.  With `merge` there is one record
per listed field path, whose type cell is the kinds of the entry joined with `;` and whose
content cell is the examples joined with `;` in the same order. -/
theorem C14_row_semantics (csvEncode : List (List String) → String)
    (range : String → typeMap → List (String × String))
    (sortedKeys : List String) (maps : Schema) (requireHeaders : Bool)
    (h : RangeOracle maps range) :
    (∀ merge, writeCsv csvEncode range sortedKeys maps merge requireHeaders
        = csvEncode (csvRecords range sortedKeys maps merge requireHeaders))
    ∧ (∀ merge, csvRecords range sortedKeys maps merge requireHeaders
        = (if requireHeaders then [["field", "type", "content"]] else [])
          ++ csvRecords range sortedKeys maps merge false)
    ∧ (∀ r, r ∈ csvRecords range sortedKeys maps false false
        ↔ ∃ f t c, r = [f, t, c] ∧ f ∈ sortedKeys ∧ exampleAt maps f t = some c)
    ∧ (sortedKeys.Nodup → (csvRecords range sortedKeys maps false false).Nodup)
    ∧ csvRecords range sortedKeys maps true false
        = sortedKeys.map (fun f =>
            [f, ";".intercalate ((range f (Schema.index maps f)).map Prod.fst),
              ";".intercalate ((range f (Schema.index maps f)).map Prod.snd)])
    ∧ ∀ merge, writeList range sortedKeys maps merge requireHeaders
        = (csvRecords range sortedKeys maps merge requireHeaders).map
            (formatRecord (listFieldLen sortedKeys) (listTypeLen maps merge)) :=
  ⟨fun _ => rfl,
   fun merge => csvRecords_header range sortedKeys maps merge requireHeaders,
   mem_csvRecords_plain range sortedKeys maps h,
   nodup_csvRecords_plain range sortedKeys maps h,
   csvRecords_merged range sortedKeys maps,
   fun merge => writeList_eq_map_csvRecords range sortedKeys maps merge requireHeaders⟩

/-- The schema of `[1, "a"]` with the kinds iterated as `number`, `string`, with headers:
the merged record is `f[]`, `number;string`, `1;"a"`, and `writeCsv` returns what the
encoder makes of the records. -/
theorem C14_row_semantics_witness :
    csvRecords sampleRange ["f[]"] sampleMaps true true
        = [["field", "type", "content"], ["f[]", "number;string", "1;\"a\""]]
    ∧ csvRecords sampleRange ["f[]"] sampleMaps false true
        = [["field", "type", "content"], ["f[]", "number", "1"], ["f[]", "string", "\"a\""]]
    ∧ (∀ merge, writeCsv (fun _ => "") sampleRange ["f[]"] sampleMaps merge true
        = (fun _ => "") (csvRecords sampleRange ["f[]"] sampleMaps merge true))
    ∧ (∀ r, r ∈ csvRecords sampleRange ["f[]"] sampleMaps false false
        ↔ ∃ f t c, r = [f, t, c] ∧ f ∈ ["f[]"] ∧ exampleAt sampleMaps f t = some c) :=
  ⟨by decide, by decide,
    (C14_row_semantics (fun _ => "") sampleRange ["f[]"] sampleMaps true
      RangeOracle_sampleRange).1,
    (C14_row_semantics (fun _ => "") sampleRange ["f[]"] sampleMaps true
      RangeOracle_sampleRange).2.2.1⟩

/-- Claim C15 (rendering is deterministic), evaluated on the code at the schema of
`[1, "a"]` under the root path `f`, whose one entry holds the kinds `number` and `string`:
two orders in which the map iteration can yield the kinds make `writeList`, `writeCsv`
and `writeJson` produce different rows, with or without `merge`.  `main` sorts the field
paths before rendering; the renderers iterate the kinds of an entry unsorted. -/
theorem C15_kind_order_not_fixed :
    sampleMaps = Parse id "f" (.TypeArray [.TypeNumber "1", .TypeString "a"]) ∅ false
    ∧ writeList sampleRange ["f[]"] sampleMaps false false
        = ["f[]   number 1\n", "f[]   string \"a\"\n"]
    ∧ writeList sampleRangeRev ["f[]"] sampleMaps false false
        = ["f[]   string \"a\"\n", "f[]   number 1\n"]
    ∧ writeList sampleRange ["f[]"] sampleMaps true false
        ≠ writeList sampleRangeRev ["f[]"] sampleMaps true false
    ∧ csvRecords sampleRange ["f[]"] sampleMaps false false
        ≠ csvRecords sampleRangeRev ["f[]"] sampleMaps false false
    ∧ jsonContent sampleRange ["f[]"] sampleMaps
        ≠ jsonContent sampleRangeRev ["f[]"] sampleMaps := by
  decide

/-- Claim C16 (fixed-width columns of `writeList`), within the width limit of `fmt`: for
ASCII field paths and kinds, the widths that `writeList` computes are
`Wf = 1 + max(5, longest field path)` and `Wt = 1 + max(4, L)`; when neither exceeds
1,000,000, the largest width that `fmt` accepts for `*`, every line written, the header
included, is a record `(a, b, c)` of the renderer laid out as `a` padded to `Wf`, `b`
padded to `Wt`, `c` and a line feed, where `a` is shorter than `Wf` and `b` shorter than
`Wt`: each padded cell has exactly the width of its column, ends with at least one space,
and the content starts at offset `Wf + Wt`. -/
theorem C16_fixed_width_columns (range : String → typeMap → List (String × String))
    (sortedFields : List String) (maps : Schema) (merge requireHeaders : Bool)
    (h : RangeOracle maps range) (hfields : ∀ f ∈ sortedFields, IsAscii f)
    (hkinds : ∀ f E, maps.lookup f = some E → ∀ t ∈ E, IsAscii t)
    (hWf : fieldWidth sortedFields ≤ 1000000)
    (hWt : typeWidth range maps merge ≤ 1000000) :
    listFieldLen sortedFields = fieldWidth sortedFields
    ∧ listTypeLen maps merge = typeWidth range maps merge
    ∧ ∀ line ∈ writeList range sortedFields maps merge requireHeaders,
        ∃ a b c, [a, b, c] ∈ csvRecords range sortedFields maps merge requireHeaders
          ∧ line = padRight (fieldWidth sortedFields) a
              ++ padRight (typeWidth range maps merge) b ++ c ++ "\n"
          ∧ a.length < fieldWidth sortedFields
          ∧ b.length < typeWidth range maps merge
          ∧ (padRight (fieldWidth sortedFields) a).length = fieldWidth sortedFields
          ∧ (padRight (typeWidth range maps merge) b).length = typeWidth range maps merge
          ∧ (padRight (fieldWidth sortedFields) a
              ++ padRight (typeWidth range maps merge) b).length
            = fieldWidth sortedFields + typeWidth range maps merge
          ∧ padRight (fieldWidth sortedFields) a
            = a ++ String.mk (List.replicate (fieldWidth sortedFields - a.length) ' ')
          ∧ padRight (typeWidth range maps merge) b
            = b ++ String.mk (List.replicate (typeWidth range maps merge - b.length) ' ') := by
  have hf := listFieldLen_eq sortedFields hfields
  have ht := listTypeLen_eq range maps merge h hkinds
  refine ⟨hf, ht, fun line hline => ?_⟩
  rw [writeList_eq_map_csvRecords, hf, ht] at hline
  obtain ⟨r, hr, rfl⟩ := List.mem_map.mp hline
  obtain ⟨a, b, c, rfl, ha, hb⟩ :=
    cell_bounds range sortedFields maps merge requireHeaders h r hr
  have hpa := padRight_length (fieldWidth sortedFields) a (Nat.le_of_lt ha) hWf
  have hpb := padRight_length (typeWidth range maps merge) b (Nat.le_of_lt hb) hWt
  refine ⟨a, b, c, hr, rfl, ha, hb, hpa, hpb, ?_,
    padRight_of_le _ a hWf, padRight_of_le _ b hWt⟩
  rw [String.length_append, hpa, hpb]

/-- The schema of `[1, "a"]` under the root path `f`, merged, with headers: both lines have
the field column six wide and the type column fourteen wide. -/
theorem C16_fixed_width_columns_witness :
    writeList sampleRange ["f[]"] sampleMaps true true
        = ["field type          content\n", "f[]   number;string 1;\"a\"\n"]
    ∧ listFieldLen ["f[]"] = fieldWidth ["f[]"]
    ∧ listTypeLen sampleMaps true = typeWidth sampleRange sampleMaps true
    ∧ fieldWidth ["f[]"] = 6 ∧ typeWidth sampleRange sampleMaps true = 14 :=
  ⟨by decide,
   (C16_fixed_width_columns sampleRange ["f[]"] sampleMaps true true RangeOracle_sampleRange
      sampleFields_ascii sampleMaps_ascii (by decide) (by decide)).1,
   (C16_fixed_width_columns sampleRange ["f[]"] sampleMaps true true RangeOracle_sampleRange
      sampleFields_ascii sampleMaps_ascii (by decide) (by decide)).2.1,
   by decide, by decide⟩

/-- Claim C16 without the width limit fails on the schema of the JSON object whose one
member has a key of 999,999 characters `a` and the value `"a"`, traversed under the empty
root path.  The field path has 1,000,000 ASCII characters, so `Wf = 1000001`, which
`fmt` refuses as a width: the header line is `%!(BADWIDTH)fieldtype   content`, in which
no space follows `field` and the content starts at offset 24, and the line of the field
path starts with `%!(BADWIDTH)` too, its content starting at offset 1000019.  The header
line is shorter than `Wf`, and no record of the renderer is padded to `Wf` in it. -/
theorem C16_width_limit_counterexample :
    longMaps = Parse id "" (.TypeObject [(longKey, .TypeString "a")]) ∅ false
    ∧ RangeOracle longMaps longRange
    ∧ (∀ f ∈ [longField], IsAscii f)
    ∧ (∀ f E, longMaps.lookup f = some E → ∀ t ∈ E, IsAscii t)
    ∧ longField.length = 1000000
    ∧ fieldWidth [longField] = 1000001
    ∧ typeWidth longRange longMaps false = 7
    ∧ writeList longRange [longField] longMaps false true
        = ["%!(BADWIDTH)fieldtype   content\n",
           "%!(BADWIDTH)" ++ longField ++ "string \"a\"\n"]
    ∧ (∃ line ∈ writeList longRange [longField] longMaps false true,
        line.length < fieldWidth [longField])
    ∧ ¬ ∀ line ∈ writeList longRange [longField] longMaps false true,
        ∃ a b c, [a, b, c] ∈ csvRecords longRange [longField] longMaps false true
          ∧ line = padRight (fieldWidth [longField]) a
              ++ padRight (typeWidth longRange longMaps false) b ++ c ++ "\n"
          ∧ (padRight (fieldWidth [longField]) a).length = fieldWidth [longField] := by
  have hl : longField.length = 1000000 := longField_length
  have hW : fieldWidth [longField] = 1000001 := by
    rw [fieldWidth_singleton longField (by omega), hl]
  have hw : writeList longRange [longField] longMaps false true
        = ["%!(BADWIDTH)fieldtype   content\n",
           "%!(BADWIDTH)" ++ longField ++ "string \"a\"\n"] :=
    writeList_single_tooLong longRange longField
      (longField_ascii longField (List.mem_singleton_self _)) (Nat.le_of_eq hl.symm)
      (if_pos rfl)
  refine ⟨(Parse_single_member id longKey).symm, RangeOracle_longRange, longField_ascii,
    longMaps_ascii, hl, hW, ?_, hw, ?_, ?_⟩
  · rw [← listTypeLen_eq longRange longMaps false RangeOracle_longRange longMaps_ascii]
    exact listTypeLen_singleton_string longField "\"a\""
  · refine ⟨"%!(BADWIDTH)fieldtype   content\n", ?_, ?_⟩
    · rw [hw]
      exact List.mem_cons_self _ _
    · rw [hW]
      decide
  · intro hall
    obtain ⟨a, b, c, hr, -, hlen⟩ := hall _ (by rw [hw]; exact List.mem_cons_self _ _)
    exact field_cell_not_padded longRange longField longMaps RangeOracle_longRange
      (Nat.le_of_eq hl.symm) a b c hr hlen

/-- Claim C17 (the traversal is idempotent): traversing `v` a second time into the schema
that `Parse p v` produced from the empty schema changes nothing; equivalently, an array
in which every element is written twice yields the same schema as the array itself. -/
theorem C17_traversal_idempotent (AppendQuote : String → String) (v : Value) (p : String)
    (c : Bool) :
    Parse AppendQuote p v (Parse AppendQuote p v ∅ c) c = Parse AppendQuote p v ∅ c
    ∧ ∀ arr : List Value,
        Parse AppendQuote p (.TypeArray (arr.flatMap (fun v => [v, v]))) ∅ c
          = Parse AppendQuote p (.TypeArray arr) ∅ c := by
  refine ⟨parse_twice AppendQuote c p v ∅, fun arr => ?_⟩
  rw [Parse, Parse, parse, parse]
  exact parseArray_doubled AppendQuote c (p) arr ∅

/-- Claim C18 (the kinds do not depend on the order of the elements): for an array in
which every number has a non-empty text, as parsed JSON numbers have, and any permutation
of its elements, the two schemas produced from the empty schema have the same field paths
and, at each field path, the same set of kinds. -/
theorem C18_kinds_element_order (AppendQuote : String → String) (arr arr' : List Value)
    (p : String) (c : Bool) (hperm : arr.Perm arr')
    (hne : NumbersNonEmpty (.TypeArray arr)) :
    (Parse AppendQuote p (.TypeArray arr) ∅ c).keys
        = (Parse AppendQuote p (.TypeArray arr') ∅ c).keys
    ∧ ∀ P, ((Parse AppendQuote p (.TypeArray arr) ∅ c).lookup P).map Finmap.keys
        = ((Parse AppendQuote p (.TypeArray arr') ∅ c).lookup P).map Finmap.keys := by
  rw [Parse, Parse, parse_eq_foldl, parse_eq_foldl]
  apply kinds_congr_of_mem_iff _ _ (observations_guarded AppendQuote c p _ hne)
  intro o
  rw [observations, observations, mem_observationsArray, mem_observationsArray]
  constructor
  · rintro ⟨v, hv, h⟩
    exact ⟨v, hperm.mem_iff.mp hv, h⟩
  · rintro ⟨v, hv, h⟩
    exact ⟨v, hperm.mem_iff.mpr hv, h⟩

/-- The arrays `[1, 2.5, null]` and `[null, 2.5, 1]` under the root path `f`. -/
theorem C18_kinds_element_order_witness :
    (Parse id "f" (.TypeArray [.TypeNumber "1", .TypeNumber "2.5", .TypeNull]) ∅ true).keys
        = (Parse id "f" (.TypeArray [.TypeNull, .TypeNumber "2.5", .TypeNumber "1"]) ∅ true).keys
    ∧ ∀ P, ((Parse id "f" (.TypeArray [.TypeNumber "1", .TypeNumber "2.5", .TypeNull]) ∅
              true).lookup P).map Finmap.keys
        = ((Parse id "f" (.TypeArray [.TypeNull, .TypeNumber "2.5", .TypeNumber "1"]) ∅
              true).lookup P).map Finmap.keys :=
  C18_kinds_element_order id _ _ "f" true
    (List.Perm.trans (List.Perm.swap _ _ _)
      (List.Perm.trans (List.Perm.cons _ (List.Perm.swap _ _ _)) (List.Perm.swap _ _ _)))
    (by
      intro t ht
      simp [scalarLeaves, scalarLeavesArray] at ht
      rcases ht with rfl | rfl <;> decide)

/-- Claim C19 (empty containers contribute nothing): `Parse` of the empty object and of the
empty array leaves `out` unchanged, and so does `Parse` of any value in which no scalar
occurs at any depth; from the empty schema such a value yields the empty schema. -/
theorem C19_empty_containers (AppendQuote : String → String) (p : String) (out : Schema)
    (c : Bool) :
    Parse AppendQuote p (.TypeObject []) out c = out
    ∧ Parse AppendQuote p (.TypeArray []) out c = out
    ∧ ∀ v, scalarLeaves v = [] → Parse AppendQuote p v out c = out := by
  refine ⟨?_, ?_, ?_⟩
  · rw [Parse, parse, parseObject]
  · rw [Parse, parse, parseArray]
  · intro v hv
    rw [Parse, parse_eq_foldl, observations_eq_nil AppendQuote c p v hv]
    rfl

/-- The document `[[], {"a": {}}]` from the empty schema. -/
theorem C19_empty_containers_witness :
    Parse id "" (.TypeArray [.TypeArray [], .TypeObject [("a", .TypeObject [])]]) ∅ false = ∅ :=
  (C19_empty_containers id "" ∅ false).2.2 _
    (by simp [scalarLeaves, scalarLeavesArray, scalarLeavesObject])
